import Mathlib

/-!
Shallow embedding of the terminal UI core of the repository
(files beets/ui/__init__.py and beets/ui/commands.py): the style engine
(colorize, uncolorize, color_len), the choice prompt engine
(input_options letter inference and the response loop), the word diff
engine (_colordiff over a sequence matcher), the text layout engine
(split_into_lines, calc_column_width) and the candidate decision
machine (_summary_judment, choose_candidate).

Python strings are modelled as Lean String / List Char; machine
integers are Nat / Int; code that raises is modelled with Except or
Option. Character predicates (isalpha, isdigit, lower, upper) are
modelled with the ASCII semantics of Lean Char functions; all inputs
used in concrete theorems are ASCII, where the two semantics agree.
-/

namespace Beets

/-- Decimal rendering of a natural number, one digit at a time; models
the rendering done by the Python percent-i format. -/
def digitChar (d : Nat) : Char :=
  match d with
  | 0 => '0' | 1 => '1' | 2 => '2' | 3 => '3' | 4 => '4'
  | 5 => '5' | 6 => '6' | 7 => '7' | 8 => '8' | 9 => '9'
  | _ => '*'

/-- Accumulator loop for decimal rendering. The fuel argument only bounds the
recursion; division by ten reaches a one digit number in fewer than n steps,
so with the fuel used below the zero fuel branch is never taken. -/
def natDecGo : Nat → Nat → List Char → List Char
  | 0, _, acc => acc
  | fuel + 1, n, acc =>
    if n < 10 then digitChar n :: acc
    else natDecGo fuel (n / 10) (digitChar (n % 10) :: acc)

/-- Decimal rendering of a natural number as a string. -/
def natDec (n : Nat) : String := String.mk (natDecGo (n + 1) n [])

/-! ## Style engine (beets/ui/__init__.py lines 400 to 551) -/

/-- Escape introducer, COLOR_ESCAPE in the source. -/
def COLOR_ESCAPE : String := "\x1b["

/-- Table ANSI_CODES of the source: style and color names to numeric codes. -/
def ANSI_CODES : List (String × Nat) :=
  [("normal", 0), ("bold", 1), ("faint", 2), ("underline", 4), ("inverse", 7),
   ("black", 30), ("red", 31), ("green", 32), ("yellow", 33), ("blue", 34),
   ("magenta", 35), ("cyan", 36), ("white", 37),
   ("bg_black", 40), ("bg_red", 41), ("bg_green", 42), ("bg_yellow", 43),
   ("bg_blue", 44), ("bg_magenta", 45), ("bg_cyan", 46), ("bg_white", 47)]

/-- Lookup in ANSI_CODES. -/
def ansiCode? (s : String) : Option Nat := ANSI_CODES.lookup s

/-- Reset sequence RESET_COLOR of the source. -/
def RESET_COLOR : String := COLOR_ESCAPE ++ "39;49;00m"

/-- List COLOR_NAMES of the source: the abstract color roles. -/
def COLOR_NAMES : List String :=
  ["text_success", "text_warning", "text_error", "text_highlight",
   "text_highlight_minor", "action_default", "action",
   "text", "text_faint", "import_path", "import_path_items",
   "action_description", "added", "removed", "changed",
   "added_highlight", "removed_highlight", "changed_highlight",
   "text_diff_added", "text_diff_removed", "text_diff_changed"]

/-- Single escape sequence for one numeric ANSI code, as produced by the
percent-i format in _colorize. -/
def escSeq (n : Nat) : String := COLOR_ESCAPE ++ natDec n ++ "m"

/-- Escape accumulation loop of _colorize: the escape prefix is extended code
by code, raising ValueError at the first code that is not an ANSI code. -/
def colorizeEscGo : List String → String → Except String String
  | [], escape => Except.ok escape
  | code :: rest, escape =>
    match ansiCode? code with
    | some n => colorizeEscGo rest (escape ++ escSeq n)
    | none => Except.error "no such ANSI code"

/-- Model of the function _colorize: builds the concatenated escape prefix by
iterating over the codes of the color, then wraps the text with the reset
suffix. -/
def colorizeRaw (color : List String) (text : String) : Except String String :=
  match colorizeEscGo color "" with
  | Except.ok escape => Except.ok (escape ++ text ++ RESET_COLOR)
  | Except.error e => Except.error e

/-- Color table: the lazily built COLORS dictionary of the source, modelled as
a finished lookup table from role name to a list of ANSI code names. -/
def ColorTable := String → Option (List String)

/-- Model of the function colorize. When color is enabled the role is looked
up in the color table; a missing entry (or an empty code list, which is falsy
in Python) falls back to using the role name string itself as the color, which
_colorize then iterates character by character. When color is disabled the
text is returned unmodified. -/
def colorize (colors : ColorTable) (enabled : Bool) (name text : String) :
    Except String String :=
  if enabled then
    let color : List String :=
      match colors name with
      | some c => if c = [] then name.data.map (fun ch => String.mk [ch]) else c
      | none => name.data.map (fun ch => String.mk [ch])
    colorizeRaw color text
  else
    Except.ok text

/-- Scanner for the tail of an ANSI match: after ESC and the opening bracket,
skip the run of digits and semicolons; a following ASCII letter completes the
match and the characters after it are returned, anything else is a failed
match. This is exactly the language of the uncolorize regular expression,
which has no successful backtracking because no digit or semicolon is a
letter. -/
def afterRun : List Char → Option (List Char)
  | [] => none
  | c :: rest =>
    if c.isDigit || c = ';' then afterRun rest
    else if c.isAlpha then some rest
    else none

theorem afterRun_length {l t : List Char} (h : afterRun l = some t) :
    t.length < l.length := by
  induction l with
  | nil => simp [afterRun] at h
  | cons c rest ih =>
    simp only [afterRun] at h
    split at h
    · have := ih h
      simp only [List.length_cons]
      omega
    · split at h
      · cases h
        simp
      · cases h

/-- Character level model of the uncolorize substitution: delete every
non-overlapping leftmost match of the ANSI pattern, scanning left to right.
The fuel argument only bounds the recursion; every step consumes at least one
character, so with fuel above the list length the zero fuel branch is never
taken. -/
def uncolGo : Nat → List Char → List Char
  | 0, l => l
  | fuel + 1, l =>
    match l with
    | [] => []
    | c :: rest =>
      if c = '\x1b' ∧ rest.head? = some '[' then
        match afterRun rest.tail with
        | some tail => uncolGo fuel tail
        | none => c :: uncolGo fuel rest
      else c :: uncolGo fuel rest

/-- ANSI stripping of a character list. -/
def uncolChars (l : List Char) : List Char := uncolGo (l.length + 1) l

/-- Model of the function uncolorize: strip ANSI codes from a string. -/
def uncolorize (s : String) : String := String.mk (uncolChars s.data)

/-- Model of the function color_len: visible length of a string. -/
def color_len (s : String) : Nat := (uncolorize s).length

/-! ## Choice prompt engine (beets/ui/__init__.py lines 173 to 334) -/

/-- First capitalized alphabetic character of an option label, as found by the
first inner loop of input_options (a letter whose uppercase form is itself). -/
def findCapital (opt : List Char) : Option Char :=
  opt.find? (fun c => c.isAlpha && c.toUpper == c)

/-- First alphabetic character of an option label that is not already a key of
the letters dictionary, as found by the second inner loop of input_options.
Non-alphabetic characters are skipped. -/
def findFresh (used : List Char) (opt : List Char) : Option Char :=
  opt.find? (fun c => c.isAlpha && !(used.contains c))

/-- Letter chosen for one option: a capitalized letter if present, otherwise
the first fresh alphabetic character, otherwise the ValueError of the source
(returned as none). -/
def optionLetter (used : List Char) (opt : String) : Option Char :=
  match findCapital opt.data with
  | some c => some c
  | none => findFresh used opt.data

/-- Letter assignment loop of input_options. Each chosen letter is stored
lowercased as a key of the letters dictionary (modelled by the used list);
the loop raises ValueError when no letter can be chosen for some option. -/
def assignGo (used : List Char) : List String → Except String (List Char)
  | [] => Except.ok []
  | opt :: rest =>
    match optionLetter used opt with
    | none => Except.error "no unambiguous lettering found"
    | some c =>
      match assignGo (used ++ [c.toLower]) rest with
      | Except.error e => Except.error e
      | Except.ok ls => Except.ok (c.toLower :: ls)

/-- Shortcut letters inferred by input_options for a list of option labels,
in option order and lowercased (which is how the response loop compares
them). -/
def assignLetters (opts : List String) : Except String (List Char) :=
  assignGo [] opts

/-- Value held by the resp variable of the response loop: a string or an
integer (the default may be an integer when a numeric range is present). -/
inductive PyV where
  | s (str : String)
  | i (int : Int)
  deriving DecidableEq, Repr, Inhabited

/-- Result of input_options: a shortcut letter or an integer selection. -/
inductive Resp where
  | letter (c : Char)
  | num (n : Int)
  deriving DecidableEq, Repr

/-- Default computation of input_options (lines 246 to 253 of the source):
with require there is no default; otherwise a caller supplied default letter
wins; otherwise the low end of the numeric range if one is present; otherwise
the lowercased first display letter. -/
def computeDefault (require : Bool) (defaultArg : Option String)
    (numrange : Option (Int × Int)) (firstLetter : Char) : Option PyV :=
  if require then none
  else
    match defaultArg with
    | some s => some (PyV.s s)
    | none =>
      match numrange with
      | some (lo, _) => some (PyV.i lo)
      | none => some (PyV.s (String.mk [firstLetter.toLower]))

/-- Model of the Python int constructor on a stripped string: an optional
sign followed by at least one ASCII digit. -/
def pyParseInt (s : String) : Option Int :=
  match s.data with
  | [] => none
  | '-' :: ds => if ds ≠ [] ∧ ds.all Char.isDigit
      then some (-(Int.ofNat (String.toNat! (String.mk ds)))) else none
  | '+' :: ds => if ds ≠ [] ∧ ds.all Char.isDigit
      then some (Int.ofNat (String.toNat! (String.mk ds))) else none
  | ds => if ds.all Char.isDigit
      then some (Int.ofNat (String.toNat! (String.mk ds))) else none

/-- Integer coercion attempted by the response loop: an integer value is kept,
a string is parsed like the Python int constructor. -/
def tryInt : PyV → Option Int
  | PyV.i n => some n
  | PyV.s str => pyParseInt str

/-- Python truthiness of a resp value: the empty string and the integer zero
are falsy. -/
def truthy : PyV → Bool
  | PyV.s str => str ≠ ""
  | PyV.i n => n ≠ 0

/-- Normalization done at the top of the response loop: strip whitespace
from both ends, then lowercase (the Python strip and lower calls). -/
def normResp (s : String) : String :=
  String.mk
    (((s.data.dropWhile Char.isWhitespace).reverse.dropWhile
        Char.isWhitespace).reverse.map Char.toLower)

/-- Letter stage of the response loop: a truthy string response is reduced to
its first character, which is accepted when it is one of the shortcut
letters; everything else falls through to the fallback prompt. -/
def letterStage (letters : List Char) : Option PyV → Option Resp
  | none => none
  | some v =>
    if truthy v then
      match v with
      | PyV.s str =>
        match str.data.head? with
        | some c => if letters.contains c then some (Resp.letter c) else none
        | none => none
      | PyV.i _ => none
    else none

/-- One iteration of the response loop of input_options (lines 306 to 334 of
the source): normalize the line, substitute the default on empty input, try
an integer inside the numeric range (an out of range integer clears the
response so the letter stage is skipped), then try the first character of
the response against the shortcut letters. The result some is a return from
input_options and none leads to reading another line. -/
def respTry (letters : List Char) (numrange : Option (Int × Int))
    (default : Option PyV) (line : String) : Option Resp :=
  let resp : PyV := PyV.s (normResp line)
  let resp : PyV :=
    if default.isSome ∧ ¬ truthy resp then default.get! else resp
  match numrange with
  | none => letterStage letters (some resp)
  | some (lo, hi) =>
    match tryInt resp with
    | none => letterStage letters (some resp)
    | some n =>
      if lo ≤ n ∧ n ≤ hi then some (Resp.num n)
      else letterStage letters none

/-- Response loop of input_options, driven by the list of lines the operator
types. The loop never returns on invalid input, so exhausting the input list
is modelled as none. -/
def respLoop (letters : List Char) (numrange : Option (Int × Int))
    (default : Option PyV) : List String → Option Resp
  | [] => none
  | line :: rest =>
    match respTry letters numrange default line with
    | some v => some v
    | none => respLoop letters numrange default rest

/-! ## Column negotiation (beets/ui/commands.py lines 433 to 453) -/

/-- Model of calc_column_width: negotiate left and right column widths from
the per column budget col_width (half the total) and the natural content
widths of each side. -/
def calc_column_width (col_width max_width_l max_width_r : Int) : Int × Int :=
  if max_width_l ≤ col_width ∧ max_width_r ≤ col_width then
    (max_width_l, max_width_r)
  else if (max_width_l > col_width ∨ max_width_r > col_width) ∧
      (max_width_l + max_width_r ≤ col_width * 2) then
    (max_width_l, max_width_r)
  else
    (col_width, col_width)

/-! ## Text layout engine: split_into_lines (beets/ui/__init__.py 683 to 739) -/

/-- Splitting loop for the Python str.split with no argument: words are
maximal runs of non whitespace characters; the current word is accumulated in
reverse. -/
def pySplitGo : List Char → List Char → List String
  | [], cur => if cur = [] then [] else [String.mk cur.reverse]
  | c :: rest, cur =>
    if c.isWhitespace then
      if cur = [] then pySplitGo rest []
      else String.mk cur.reverse :: pySplitGo rest []
    else pySplitGo rest (c :: cur)

/-- Model of the Python str.split with no argument: split on runs of
whitespace, never returning empty words. -/
def pySplit (s : String) : List String := pySplitGo s.data []

/-- Result record of split_into_lines, with the col and raw line lists. -/
structure SplitResult where
  col : List String
  raw : List String
  deriving DecidableEq, Repr

/-- Word accumulation loop of split_into_lines. Walks the zipped word lists,
carrying the next substring pair and the committed line lists; the potential
substring either extends the current line (first line budget while no line
has been committed, middle budget afterwards) or commits the current line and
starts a new one with the word. Returns the committed lines and the final
uncommitted pair. -/
def silGo (firstW middleW : Int) :
    List (String × String) → Bool → (String × String) →
    (List String × List String) →
    ((List String × List String) × (String × String))
  | [], _, next, acc => (acc, next)
  | (wRaw, w) :: rest, isFirst, (nextRaw, nextCol), (accRaw, accCol) =>
    let potRaw := if isFirst then wRaw else nextRaw ++ " " ++ wRaw
    let potCol := if isFirst then w else nextCol ++ " " ++ w
    let fits : Bool :=
      if accRaw = [] then (potRaw.length : Int) ≤ firstW
      else (potRaw.length : Int) ≤ middleW
    if fits then
      silGo firstW middleW rest false (potRaw, potCol) (accRaw, accCol)
    else
      silGo firstW middleW rest false (wRaw, w)
        (accRaw ++ [nextRaw], accCol ++ [nextCol])

/-- Model of split_into_lines: wrap string (colorized) and raw_string (visible
form) at whitespace into lines fitting the first, middle and last width
budgets; the final line is committed after the loop, and an empty line is
appended when the final line exceeds the last width budget. -/
def split_into_lines (string raw_string : String)
    (firstW middleW lastW : Int) : SplitResult :=
  let wordsRaw := pySplit raw_string
  let words := pySplit string
  let (acc, next) :=
    silGo firstW middleW (wordsRaw.zip words) true ("", "") ([], [])
  let raw1 := acc.1 ++ [next.1]
  let col1 := acc.2 ++ [next.2]
  if ¬ ((next.1.length : Int) ≤ lastW) then
    ⟨col1 ++ [""], raw1 ++ [""]⟩
  else
    ⟨col1, raw1⟩

/-! ## Decision machine (beets/ui/commands.py 848 to 1058) -/

/-- Recommendation tiers of the external matcher, ordered none to strong. -/
inductive Recommendation where
  | none | low | medium | strong
  deriving DecidableEq, Repr

/-- Numeric rank of a recommendation tier, giving the order used by the
comparisons in choose_candidate. -/
def recVal : Recommendation → Nat
  | .none => 0
  | .low => 1
  | .medium => 2
  | .strong => 3

/-- Import actions of the importer module that the decision machine returns. -/
inductive ImportAction where
  | apply | skip | asis | tracks | albums | manual | manual_id
  deriving DecidableEq, Repr

/-- Configured quiet_fallback policy (choice of skip or asis). -/
inductive QuietFallback where
  | skip | asis
  deriving DecidableEq, Repr

/-- Configured none_rec_action policy (choice of skip, asis or ask). -/
inductive NoneRecAction where
  | skip | asis | ask
  deriving DecidableEq, Repr

/-- Model of _summary_judment: decide without asking the user. In quiet mode a
strong recommendation applies, anything else resolves to the quiet_fallback
policy; outside quiet mode a none recommendation resolves to the
none_rec_action policy, where ask yields none so that the user is queried;
any other tier outside quiet mode yields none. -/
def summary_judment (quiet : Bool) (qf : QuietFallback) (nra : NoneRecAction)
    (rec : Recommendation) : Option ImportAction :=
  if quiet then
    if rec = .strong then some .apply
    else
      match qf with
      | .skip => some .skip
      | .asis => some .asis
  else if rec = .none then
    match nra with
    | .skip => some .skip
    | .asis => some .asis
    | .ask => none
  else
    none

/-- Selection returned by one input_options call inside choose_candidate:
either a shortcut letter or a numeric candidate selection. -/
inductive Sel where
  | letter (c : Char)
  | num (n : Nat)
  deriving DecidableEq, Repr

/-- Final value of choose_candidate: a chosen candidate (to be applied),
an action of the importer, or the ImportAbort exception. -/
inductive Decision (α : Type) where
  | chosen (m : α)
  | act (a : ImportAction)
  | abort
  deriving DecidableEq, Repr

mutual

/-- Candidate display iteration of the choose_candidate loop (the branch taken
when bypass_candidates is false): one input_options call whose selection is a
shortcut letter or a candidate number. A selection letter outside the option
set, an assertion failure, or exhausted input is modelled as none. The letter
m falls through the letter chain with the match variable left at the last
candidate of the display loop. The Nat result counts input_options calls. -/
def chooseDisplay {α : Type} (cands : List α) (singleton : Bool)
    (rec : Recommendation) (timid : Bool) (defaultAction : Option Char) :
    List Sel → Nat → Option (Decision α × Nat)
  | [], _ => none
  | sel :: rest, prompts =>
    let require := recVal rec ≤ recVal .low
    let p := prompts + 1
    match sel with
    | .letter 's' => some (.act .skip, p)
    | .letter 'u' => some (.act .asis, p)
    | .letter 'm' =>
      match cands.getLast? with
      | some m => choosePost cands singleton rec timid defaultAction m require rest p
      | none => none
    | .letter 'e' => some (.act .manual, p)
    | .letter 't' => if singleton then none else some (.act .tracks, p)
    | .letter 'b' => some (.abort, p)
    | .letter 'i' => some (.act .manual_id, p)
    | .letter 'g' => some (.act .albums, p)
    | .letter _ => none
    | .num n =>
      if h : 1 ≤ n ∧ n ≤ cands.length then
        choosePost cands singleton rec timid defaultAction
          (cands.get ⟨n - 1, by omega⟩) (require || decide (n ≠ 1)) rest p
      else none
  termination_by sels _ => (sels.length, 0)

/-- Tail of one choose_candidate loop iteration, after a candidate has been
selected (directly or by bypass): the change view is rendered, then a strong
recommendation outside timid mode returns the match at once without another
prompt; otherwise the confirmation prompt consumes one selection. An
unmatched confirmation letter (such as m, more candidates) continues the
outer loop at the candidate display. -/
def choosePost {α : Type} (cands : List α) (singleton : Bool)
    (rec : Recommendation) (timid : Bool) (defaultAction : Option Char)
    (mtch : α) (require : Bool) :
    List Sel → Nat → Option (Decision α × Nat)
  | sels, prompts =>
    if rec = .strong ∧ ¬ timid then some (.chosen mtch, prompts)
    else
      match sels with
      | [] => none
      | sel :: rest =>
        let _require := if defaultAction = none then true else require
        let p := prompts + 1
        match sel with
        | .letter 'a' => some (.chosen mtch, p)
        | .letter 'g' => some (.act .albums, p)
        | .letter 's' => some (.act .skip, p)
        | .letter 'u' => some (.act .asis, p)
        | .letter 't' => if singleton then none else some (.act .tracks, p)
        | .letter 'e' => some (.act .manual, p)
        | .letter 'b' => some (.abort, p)
        | .letter 'i' => some (.act .manual_id, p)
        | _ => chooseDisplay cands singleton rec timid defaultAction rest p
  termination_by sels _ => (sels.length, 1)

end

/-- Model of choose_candidate: the zero candidate branch offers the reduced
option set and maps the selection directly; with candidates present, a
recommendation other than none bypasses the candidate display with the top
candidate preselected, and the interactive loop runs otherwise. The selection
list models the successive values returned by input_options; the Nat result
counts input_options calls. -/
def choose_candidate {α : Type} (cands : List α) (singleton : Bool)
    (rec : Recommendation) (timid : Bool) (defaultAction : Option Char)
    (sels : List Sel) : Option (Decision α × Nat) :=
  match cands with
  | [] =>
    match sels with
    | [] => none
    | sel :: _ =>
      match sel with
      | .letter 'u' => some (.act .asis, 1)
      | .letter 't' => if singleton then none else some (.act .tracks, 1)
      | .letter 'e' => some (.act .manual, 1)
      | .letter 's' => some (.act .skip, 1)
      | .letter 'b' => some (.abort, 1)
      | .letter 'i' => some (.act .manual_id, 1)
      | .letter 'g' => some (.act .albums, 1)
      | _ => none
  | m0 :: _ =>
    if rec ≠ .none then
      choosePost cands singleton rec timid defaultAction m0
        (recVal rec ≤ recVal .low) sels 0
    else
      chooseDisplay cands singleton rec timid defaultAction sels 0

/-! ## Sequence matcher (difflib as instantiated by _colordiff:
SequenceMatcher with an isjunk callable that always returns False, default
autojunk, over two character sequences) -/

/-- Construction loop of the b2j dictionary: index i of element c is appended
to the list held for c, scanning the sequence left to right. The dictionary
is modelled as a total function with the empty list as default. -/
def b2jRaw : List Char → Nat → (Char → List Nat) → (Char → List Nat)
  | [], _, dict => dict
  | c :: rest, i, dict =>
    b2jRaw rest (i + 1) (fun x => if x = c then dict x ++ [i] else dict x)

/-- Dictionary from element to ascending list of its positions in b. -/
def b2jDict (b : List Char) : Char → List Nat := b2jRaw b 0 (fun _ => [])

/-- Final b2j dictionary after the junk purge (elements satisfying isjunk)
and the autojunk popular purge (elements occurring more than one percent of
the time in a sequence of at least 200 elements). -/
def b2jFinal (isjunk : Char → Bool) (autojunk : Bool) (b : List Char) :
    Char → List Nat :=
  let raw := b2jDict b
  let n := b.length
  fun c =>
    if isjunk c then []
    else if autojunk ∧ n ≥ 200 ∧ (raw c).length > n / 100 + 1 then []
    else raw c

/-- Inner loop of find_longest_match over the position list of the current
element: positions below blo are skipped, a position at or past bhi breaks
the loop (the lists are ascending); otherwise the run length through the
previous diagonal cell is recorded in the new dictionary and the best block
is updated on strict improvement. -/
def flmInner (j2lenOld : Nat → Nat) (blo bhi i : Nat) :
    List Nat → (Nat → Nat) → (Nat × Nat × Nat) →
    ((Nat → Nat) × (Nat × Nat × Nat))
  | [], newDict, best => (newDict, best)
  | j :: js, newDict, best =>
    if j < blo then flmInner j2lenOld blo bhi i js newDict best
    else if j ≥ bhi then (newDict, best)
    else
      let k := (if j = 0 then 0 else j2lenOld (j - 1)) + 1
      let newDict2 := fun x => if x = j then k else newDict x
      -- Python computes i-k+1 and j-k+1 with ints; the run length k never
      -- exceeds i+1 or j+1, so i+1-k and j+1-k agree with it on Nat.
      let best2 := if k > best.2.2 then (i + 1 - k, j + 1 - k, k) else best
      flmInner j2lenOld blo bhi i js newDict2 best2

/-- Outer loop of find_longest_match over the indices of a in the given
range; the dictionary of run lengths is rebuilt for every i. -/
def flmOuter (get : Char → List Nat) (a : List Char) (blo bhi : Nat) :
    List Nat → (Nat → Nat) → (Nat × Nat × Nat) →
    ((Nat → Nat) × (Nat × Nat × Nat))
  | [], j2len, best => (j2len, best)
  | i :: is, j2len, best =>
    let (newDict, best2) :=
      flmInner j2len blo bhi i (get (a.getD i (Char.ofNat 0)))
        (fun _ => 0) best
    flmOuter get a blo bhi is newDict best2

/-- Backward extension of the best block by equal elements whose junk status
matches junkFlag. The fuel argument only bounds the recursion; besti
decreases while it stays above alo, so with fuel above besti the zero fuel
branch is never taken. -/
def extBackGo (junkFlag : Bool) (isbjunk : Char → Bool) (a b : List Char)
    (alo blo : Nat) : Nat → Nat → Nat → Nat → Nat × Nat × Nat
  | 0, besti, bestj, bestsize => (besti, bestj, bestsize)
  | fuel + 1, besti, bestj, bestsize =>
    if besti > alo ∧ bestj > blo ∧
        isbjunk (b.getD (bestj - 1) (Char.ofNat 0)) = junkFlag ∧
        a.getD (besti - 1) (Char.ofNat 0) = b.getD (bestj - 1) (Char.ofNat 0)
    then extBackGo junkFlag isbjunk a b alo blo fuel
      (besti - 1) (bestj - 1) (bestsize + 1)
    else (besti, bestj, bestsize)

/-- Backward extension loop of find_longest_match. -/
def extBack (junkFlag : Bool) (isbjunk : Char → Bool) (a b : List Char)
    (alo blo : Nat) (besti bestj bestsize : Nat) : Nat × Nat × Nat :=
  extBackGo junkFlag isbjunk a b alo blo (besti + 1) besti bestj bestsize

/-- Forward extension of the best block by equal elements whose junk status
matches junkFlag. The fuel argument only bounds the recursion; bestsize grows
while besti plus bestsize stays below ahi, so with fuel above ahi the zero
fuel branch is never taken. -/
def extFwdGo (junkFlag : Bool) (isbjunk : Char → Bool) (a b : List Char)
    (ahi bhi : Nat) : Nat → Nat → Nat → Nat → Nat × Nat × Nat
  | 0, besti, bestj, bestsize => (besti, bestj, bestsize)
  | fuel + 1, besti, bestj, bestsize =>
    if besti + bestsize < ahi ∧ bestj + bestsize < bhi ∧
        isbjunk (b.getD (bestj + bestsize) (Char.ofNat 0)) = junkFlag ∧
        a.getD (besti + bestsize) (Char.ofNat 0)
          = b.getD (bestj + bestsize) (Char.ofNat 0)
    then extFwdGo junkFlag isbjunk a b ahi bhi fuel besti bestj (bestsize + 1)
    else (besti, bestj, bestsize)

/-- Forward extension loop of find_longest_match. -/
def extFwd (junkFlag : Bool) (isbjunk : Char → Bool) (a b : List Char)
    (ahi bhi : Nat) (besti bestj bestsize : Nat) : Nat × Nat × Nat :=
  extFwdGo junkFlag isbjunk a b ahi bhi (ahi + 1) besti bestj bestsize

/-- Model of find_longest_match: dynamic program over the index range, then
the four extension loops (non junk backward, non junk forward, junk backward,
junk forward). -/
def find_longest_match (get : Char → List Nat) (isbjunk : Char → Bool)
    (a b : List Char) (alo ahi blo bhi : Nat) : Nat × Nat × Nat :=
  let r := flmOuter get a blo bhi (List.range' alo (ahi - alo))
    (fun _ => 0) (alo, blo, 0)
  let b1 := extBack false isbjunk a b alo blo r.2.1 r.2.2.1 r.2.2.2
  let b2 := extFwd false isbjunk a b ahi bhi b1.1 b1.2.1 b1.2.2
  let b3 := extBack true isbjunk a b alo blo b2.1 b2.2.1 b2.2.2
  extFwd true isbjunk a b ahi bhi b3.1 b3.2.1 b3.2.2

/-- Queue loop of get_matching_blocks. The queue is a stack (Python pop takes
the last element); a nonzero match is recorded and the two flanking regions
are pushed. Fuel bounds the number of pops; the callers supply enough fuel
for the recursion to run out of regions first. -/
def gmbGo (flm : Nat → Nat → Nat → Nat → (Nat × Nat × Nat)) :
    Nat → List (Nat × Nat × Nat × Nat) → List (Nat × Nat × Nat) →
    List (Nat × Nat × Nat)
  | 0, _, acc => acc
  | _ + 1, [], acc => acc
  | fuel + 1, (alo, ahi, blo, bhi) :: stack, acc =>
    let r := flm alo ahi blo bhi
    let i := r.1
    let j := r.2.1
    let k := r.2.2
    if k ≠ 0 then
      let stack1 := if alo < i ∧ blo < j then (alo, i, blo, j) :: stack else stack
      let stack2 :=
        if i + k < ahi ∧ j + k < bhi then (i + k, ahi, j + k, bhi) :: stack1
        else stack1
      gmbGo flm fuel stack2 (acc ++ [(i, j, k)])
    else gmbGo flm fuel stack acc

/-- Lexicographic order on matching block triples, the order of the Python
list sort. -/
def tripleLe (x y : Nat × Nat × Nat) : Bool :=
  if x.1 ≠ y.1 then x.1 < y.1
  else if x.2.1 ≠ y.2.1 then x.2.1 < y.2.1
  else x.2.2 ≤ y.2.2

/-- Stable ascending sort modelling the Python list sort. -/
def insSorted (x : Nat × Nat × Nat) :
    List (Nat × Nat × Nat) → List (Nat × Nat × Nat)
  | [] => [x]
  | y :: ys => if tripleLe x y then x :: y :: ys else y :: insSorted x ys

/-- Insertion sort driver. -/
def sortBlocks : List (Nat × Nat × Nat) → List (Nat × Nat × Nat)
  | [] => []
  | x :: xs => insSorted x (sortBlocks xs)

/-- Adjacency merge loop of get_matching_blocks: adjacent blocks are fused,
and the running block is emitted when the chain breaks. -/
def mergeAdj : List (Nat × Nat × Nat) → (Nat × Nat × Nat) →
    List (Nat × Nat × Nat) → List (Nat × Nat × Nat)
  | [], cur, acc => if cur.2.2 ≠ 0 then acc ++ [cur] else acc
  | (i2, j2, k2) :: rest, (i1, j1, k1), acc =>
    if i1 + k1 = i2 ∧ j1 + k1 = j2 then mergeAdj rest (i1, j1, k1 + k2) acc
    else if k1 ≠ 0 then mergeAdj rest (i2, j2, k2) (acc ++ [(i1, j1, k1)])
    else mergeAdj rest (i2, j2, k2) acc

/-- Model of get_matching_blocks: recursive longest match decomposition,
sorted, with adjacent blocks merged and the length sentinel appended. -/
def get_matching_blocks (get : Char → List Nat) (isbjunk : Char → Bool)
    (a b : List Char) : List (Nat × Nat × Nat) :=
  let la := a.length
  let lb := b.length
  let blocks := gmbGo (find_longest_match get isbjunk a b)
    (la + lb + 1) [(0, la, 0, lb)] []
  mergeAdj (sortBlocks blocks) (0, 0, 0) [] ++ [(la, lb, 0)]

/-- Edit operation tags of get_opcodes. -/
inductive OpTag where
  | equal | insert | delete | replace
  deriving DecidableEq, Repr

/-- Opcode walk of get_opcodes over the matching blocks. -/
def opcodesGo : List (Nat × Nat × Nat) → Nat → Nat →
    List (OpTag × Nat × Nat × Nat × Nat) →
    List (OpTag × Nat × Nat × Nat × Nat)
  | [], _, _, acc => acc
  | (ai, bj, size) :: rest, i, j, acc =>
    let tag? : Option OpTag :=
      if i < ai ∧ j < bj then some .replace
      else if i < ai then some .delete
      else if j < bj then some .insert
      else none
    let acc1 := match tag? with
      | some t => acc ++ [(t, i, ai, j, bj)]
      | none => acc
    let i2 := ai + size
    let j2 := bj + size
    let acc2 := if size ≠ 0 then acc1 ++ [(.equal, ai, i2, bj, j2)] else acc1
    opcodesGo rest i2 j2 acc2

/-- Model of get_opcodes for the matcher configuration used by _colordiff:
isjunk always false and default autojunk. -/
def get_opcodes (a b : List Char) : List (OpTag × Nat × Nat × Nat × Nat) :=
  let isjunk : Char → Bool := fun _ => false
  let get := b2jFinal isjunk true b
  opcodesGo (get_matching_blocks get isjunk a b) 0 0 []

/-! ## Word diff engine (_colordiff and colordiff, lines 554 to 628) -/

/-- Stringification of a value by the Python unicode constructor. -/
def pyUnicode : PyV → String
  | .s str => str
  | .i n => toString n

/-- Model of the Python re.split with the single whitespace capturing group:
the string is cut at every whitespace character, the separators themselves
are kept as singleton elements, and empty chunks appear between adjacent
separators and at the edges. -/
def reSplitWsGo : List Char → List Char → List String
  | [], cur => [String.mk cur.reverse]
  | c :: rest, cur =>
    if c.isWhitespace then
      String.mk cur.reverse :: String.mk [c] :: reSplitWsGo rest []
    else reSplitWsGo rest (c :: cur)

/-- Splitting of a span into words and whitespace separators. -/
def reSplitWs (s : String) : List String := reSplitWsGo s.data []

/-- Test of the word mappers: re.match of the whitespace pattern succeeds
exactly when the word starts with a whitespace character. -/
def wsLead (w : String) : Bool :=
  match w.data with
  | c :: _ => c.isWhitespace
  | [] => false

/-- Word mapper of _colordiff: whitespace separators survive unmodified,
anything else (including empty chunks) is colorized with the given role. -/
def diffMapper (colors : ColorTable) (enabled : Bool) (role : String)
    (w : String) : Except String String :=
  if wsLead w then Except.ok w else colorize colors enabled role w

/-- Substring of a character list between two indices, as a string. -/
def sliceStr (l : List Char) (lo hi : Nat) : String :=
  String.mk ((l.drop lo).take (hi - lo))

/-- Lowercased form of a string (Python str.lower, ASCII model). -/
def pyLowerStr (s : String) : String := String.mk (s.data.map Char.toLower)

/-- Mapper application over the word list of a span, propagating the first
error, as the Python map call does inside _colordiff. -/
def mapWords (f : String → Except String String) :
    List String → Except String (List String)
  | [] => Except.ok []
  | w :: ws =>
    match f w with
    | Except.error e => Except.error e
    | Except.ok w' =>
      match mapWords f ws with
      | Except.error e => Except.error e
      | Except.ok ws' => Except.ok (w' :: ws')

/-- Handling of one opcode by _colordiff: the pair of additions to the left
and right output lists. Equal spans pass through, insert spans colorize the
right side words as added, delete spans the left side words as removed, and
replace spans colorize both sides as removed and added, except that a case
only change uses the minor highlight role on both sides. -/
def cdStep (colors : ColorTable) (enabled : Bool) (A B : List Char)
    (op : OpTag × Nat × Nat × Nat × Nat) :
    Except String (List String × List String) :=
  match op with
  | (tag, a1, a2, b1, b2) =>
    match tag with
    | .equal => Except.ok ([sliceStr A a1 a2], [sliceStr B b1 b2])
    | .insert =>
      match mapWords (diffMapper colors enabled "text_diff_added")
        (reSplitWs (sliceStr B b1 b2)) with
      | Except.error e => Except.error e
      | Except.ok ws => Except.ok (([] : List String), [String.join ws])
    | .delete =>
      match mapWords (diffMapper colors enabled "text_diff_removed")
        (reSplitWs (sliceStr A a1 a2)) with
      | Except.error e => Except.error e
      | Except.ok ws => Except.ok ([String.join ws], ([] : List String))
    | .replace =>
      let roleA := if pyLowerStr (sliceStr A a1 a2) ≠ pyLowerStr (sliceStr B b1 b2)
        then "text_diff_removed" else "text_highlight_minor"
      let roleB := if pyLowerStr (sliceStr A a1 a2) ≠ pyLowerStr (sliceStr B b1 b2)
        then "text_diff_added" else "text_highlight_minor"
      match mapWords (diffMapper colors enabled roleA)
        (reSplitWs (sliceStr A a1 a2)) with
      | Except.error e => Except.error e
      | Except.ok wa =>
        match mapWords (diffMapper colors enabled roleB)
          (reSplitWs (sliceStr B b1 b2)) with
        | Except.error e => Except.error e
        | Except.ok wb => Except.ok ([String.join wa], [String.join wb])

/-- Opcode walk of _colordiff, concatenating the per opcode additions. -/
def cdWalk (colors : ColorTable) (enabled : Bool) (A B : List Char) :
    List (OpTag × Nat × Nat × Nat × Nat) →
    Except String (List String × List String)
  | [] => Except.ok ([], [])
  | op :: rest =>
    match cdStep colors enabled A B op with
    | Except.error e => Except.error e
    | Except.ok (ha, hb) =>
      match cdWalk colors enabled A B rest with
      | Except.error e => Except.error e
      | Except.ok (ta, tb) => Except.ok (ha ++ ta, hb ++ tb)

/-- Model of _colordiff. A pair with a non string member falls back to whole
value equality of the stringified values, returning them uncolored when equal
and wrapped whole in the diff removed and diff added roles otherwise. A pair
of strings runs the sequence matcher and colorizes span by span. -/
def colordiffRaw (colors : ColorTable) (enabled : Bool) (a b : PyV) :
    Except String (String × String) :=
  match a, b with
  | PyV.s sa, PyV.s sb =>
    match cdWalk colors enabled sa.data sb.data
      (get_opcodes sa.data sb.data) with
    | Except.error e => Except.error e
    | Except.ok (aout, bout) => Except.ok (String.join aout, String.join bout)
  | _, _ =>
    let ua := pyUnicode a
    let ub := pyUnicode b
    if ua = ub then Except.ok (ua, ub)
    else
      match colorize colors enabled "text_diff_removed" ua with
      | Except.error e => Except.error e
      | Except.ok ca =>
        match colorize colors enabled "text_diff_added" ub with
        | Except.error e => Except.error e
        | Except.ok cb => Except.ok (ca, cb)

/-- Model of colordiff: diff with highlighting when color is enabled, plain
stringification otherwise. -/
def colordiff (colors : ColorTable) (enabled : Bool) (a b : PyV) :
    Except String (String × String) :=
  if enabled then colordiffRaw colors enabled a b
  else Except.ok (pyUnicode a, pyUnicode b)

/-- Color table used by the concrete theorems: a well formed configuration
assigning a distinct plausible code list to every abstract role name. -/
def exampleColors : ColorTable := fun name =>
  if name = "text_success" then some ["bold", "green"]
  else if name = "text_warning" then some ["bold", "yellow"]
  else if name = "text_error" then some ["bold", "red"]
  else if name = "text_highlight" then some ["bold", "red"]
  else if name = "text_highlight_minor" then some ["white"]
  else if name = "action_default" then some ["bold", "cyan"]
  else if name = "action" then some ["blue"]
  else if name = "text" then some ["normal"]
  else if name = "text_faint" then some ["faint"]
  else if name = "import_path" then some ["blue"]
  else if name = "import_path_items" then some ["bold", "blue"]
  else if name = "action_description" then some ["white"]
  else if name = "added" then some ["green"]
  else if name = "removed" then some ["red"]
  else if name = "changed" then some ["yellow"]
  else if name = "added_highlight" then some ["bold", "green"]
  else if name = "removed_highlight" then some ["bold", "red"]
  else if name = "changed_highlight" then some ["bold", "yellow"]
  else if name = "text_diff_added" then some ["bold", "red"]
  else if name = "text_diff_removed" then some ["red"]
  else if name = "text_diff_changed" then some ["bold", "yellow"]
  else none

/-! ## Claim C1: column width negotiation -/

/-- C1 counterexample: with col_width 37 (total budget 74), natural widths 60
and 20 sum to 80, which exceeds the budget, so the code clamps both columns
to 37; the claim says the negotiated widths would be 60 and 20. -/
theorem C1_calc_column_width_counterexample :
    calc_column_width 37 60 20 = (37, 37) ∧
    ((37 : Int), (37 : Int)) ≠ ((60 : Int), (20 : Int)) := by
  constructor
  · decide
  · decide

/-- C1 (amended): if both natural widths are at most col_width, the
negotiated widths are the natural widths; else if their sum is at most twice
col_width, each is granted its natural width; otherwise both are clamped to
col_width. With col_width 37: widths 30 and 30 give 30 and 30; widths 60 and
20 sum to 80 over the budget 74 and clamp to 37 and 37; widths 60 and 60
clamp to 37 and 37. -/
theorem C1_calc_column_width_amended :
    (∀ cw l r : Int,
      (l ≤ cw ∧ r ≤ cw → calc_column_width cw l r = (l, r)) ∧
      (¬ (l ≤ cw ∧ r ≤ cw) → l + r ≤ cw * 2 → calc_column_width cw l r = (l, r)) ∧
      (¬ (l ≤ cw ∧ r ≤ cw) → ¬ (l + r ≤ cw * 2) →
        calc_column_width cw l r = (cw, cw))) ∧
    calc_column_width 37 30 30 = (30, 30) ∧
    calc_column_width 37 60 20 = (37, 37) ∧
    calc_column_width 37 60 60 = (37, 37) := by
  refine ⟨fun cw l r => ⟨?_, ?_, ?_⟩, by decide, by decide, by decide⟩ <;>
    · intros
      unfold calc_column_width
      split_ifs <;> first | rfl | (exfalso; omega)

/-- C1 witness: the amended theorem applied at col_width 37 and natural
widths 60 and 60. -/
theorem C1_calc_column_width_amended_witness :
    calc_column_width 37 60 60 = (37, 37) :=
  (C1_calc_column_width_amended.1 37 60 60).2.2 (by decide) (by decide)

/-! ## Claim C5: summary judgment -/

/-- C5: in quiet mode a strong recommendation resolves to apply and every
other tier resolves to the configured quiet fallback; outside quiet mode a
none recommendation resolves to the configured none tier action (ask giving
none, so the user is queried) and every other tier gives none. In
particular quiet mode with recommendation medium and fallback skip resolves
to skip. -/
theorem C5_summary_judment_cases :
    (∀ qf nra, summary_judment true qf nra .strong = some .apply) ∧
    (∀ qf nra rec, rec ≠ .strong →
      summary_judment true qf nra rec =
        some (match qf with | .skip => .skip | .asis => .asis)) ∧
    (∀ qf, summary_judment false qf .skip .none = some .skip) ∧
    (∀ qf, summary_judment false qf .asis .none = some .asis) ∧
    (∀ qf, summary_judment false qf .ask .none = none) ∧
    (∀ qf nra rec, rec ≠ .none → summary_judment false qf nra rec = none) ∧
    summary_judment true .skip .ask .medium = some .skip := by
  refine ⟨?_, ?_, ?_, ?_, ?_, ?_, by decide⟩
  · intro qf nra; cases qf <;> cases nra <;> decide
  · intro qf nra rec h; cases qf <;> cases nra <;> cases rec <;>
      first | rfl | exact absurd rfl h
  · intro qf; cases qf <;> decide
  · intro qf; cases qf <;> decide
  · intro qf; cases qf <;> decide
  · intro qf nra rec h; cases qf <;> cases nra <;> cases rec <;>
      first | rfl | exact absurd rfl h

/-- C5 witness: the theorem applied in quiet mode at recommendation medium
with fallback skip. -/
theorem C5_summary_judment_cases_witness :
    summary_judment true .skip .ask .medium = some .skip :=
  C5_summary_judment_cases.2.1 .skip .ask .medium (by decide)

/-! ## Claim C3: colorize on an unknown role -/

/-- C3: with color enabled, a role name missing from the color table does not
fail closed. The fallback assigns the role name string itself as the color,
and _colorize then iterates it character by character; no single character is
a key of ANSI_CODES, so ValueError is raised at the first character instead
of the text being returned unmodified. -/
theorem C3_colorize_unknown_raises :
    colorize exampleColors true "unknown_role" "hi" =
      Except.error "no such ANSI code" ∧
    (Except.error "no such ANSI code" : Except String String) ≠
      Except.ok "hi" := by
  refine ⟨rfl, fun h => Except.noConfusion h⟩

/-! ## Claim C7: colordiff on non string values -/

/-- C7 counterexample: with color enabled, the whole value fallback for a non
string pair colorizes with the text_diff_removed and text_diff_added roles,
not with the error role; under the example table the left output differs from
the text_error coloring of the same value. -/
theorem C7_colordiff_counterexample :
    colordiff exampleColors true (PyV.i 1) (PyV.i 2) =
      Except.ok ("\x1b[31m1\x1b[39;49;00m", "\x1b[1m\x1b[31m2\x1b[39;49;00m") ∧
    colorize exampleColors true "text_error" "1" =
      Except.ok "\x1b[1m\x1b[31m1\x1b[39;49;00m" ∧
    ("\x1b[31m1\x1b[39;49;00m" : String) ≠ "\x1b[1m\x1b[31m1\x1b[39;49;00m" := by
  refine ⟨rfl, rfl, by decide⟩

/-- Whether a value is a string. -/
def PyV.isString : PyV → Bool
  | .s _ => true
  | .i _ => false

/-- C7 (amended): when at least one of the two values is not a string,
colordiff with color enabled falls back to whole value equality: equal
stringifications are returned uncolored and unequal ones are wrapped whole in
the text_diff_removed role (old side) and the text_diff_added role (new
side); no word level diff is performed. -/
theorem C7_colordiff_amended :
    ∀ (colors : ColorTable) (a b : PyV),
      ¬ (a.isString = true ∧ b.isString = true) →
      (pyUnicode a = pyUnicode b →
        colordiff colors true a b = Except.ok (pyUnicode a, pyUnicode b)) ∧
      (∀ ca cb, pyUnicode a ≠ pyUnicode b →
        colorize colors true "text_diff_removed" (pyUnicode a) = Except.ok ca →
        colorize colors true "text_diff_added" (pyUnicode b) = Except.ok cb →
        colordiff colors true a b = Except.ok (ca, cb)) := by
  intro colors a b h
  constructor
  · intro he
    cases a <;> cases b <;>
      simp_all [colordiff, colordiffRaw, PyV.isString, pyUnicode]
  · intro ca cb hne hca hcb
    cases a <;> cases b <;>
      simp_all [colordiff, colordiffRaw, PyV.isString, pyUnicode]

/-- C7 witness: the amended theorem applied to the pair of integers 1 and
2 under the example table. -/
theorem C7_colordiff_amended_witness :
    colordiff exampleColors true (PyV.i 1) (PyV.i 2) =
      Except.ok ("\x1b[31m1\x1b[39;49;00m", "\x1b[1m\x1b[31m2\x1b[39;49;00m") :=
  (C7_colordiff_amended exampleColors (PyV.i 1) (PyV.i 2)
    (by decide)).2 "\x1b[31m1\x1b[39;49;00m" "\x1b[1m\x1b[31m2\x1b[39;49;00m"
    (by decide) rfl rfl

/-! ## Claim C2: shortcut letter inference -/

/-- C2 counterexample: two labels that both capitalize the letter S receive
the same shortcut without any error, so the shortcuts are neither pairwise
distinct nor guarded by the ambiguous lettering error; and a label with two
capitalized letters takes its first capital (y), not the first alphabetic
character (x) as the otherwise branch of the claim would require. -/
theorem C2_assignLetters_counterexample :
    assignLetters ["Skip", "Search"] = Except.ok ['s', 's'] ∧
    ¬ ([('s' : Char), 's'].Pairwise (· ≠ ·)) ∧
    assignLetters ["xY Z"] = Except.ok ['y'] ∧ ('y' : Char) ≠ 'x' := by
  refine ⟨rfl, ?_, rfl, by decide⟩
  intro h
  have := List.rel_of_pairwise_cons h (List.mem_singleton.mpr rfl)
  exact this rfl

/-- Specification predicate for the amended claim: ls is the shortcut list
for opts when it has one lowercased letter per option, and the letter of
option k is chosen by the capital first rule relative to the shortcuts of
the earlier options (the first k assigned letters). -/
def IsShortcutAssignment (opts : List String) (ls : List Char) : Prop :=
  ls.length = opts.length ∧
  ∀ k (hk : k < opts.length) (hl : k < ls.length),
    ∃ c, optionLetter (ls.take k) (opts.get ⟨k, hk⟩) = some c ∧
      ls.get ⟨k, hl⟩ = c.toLower

/-- Freshness check for the amended distinctness clause: every chosen
letter, lowercased, is absent from the shortcuts already assigned. -/
def capsFresh (used : List Char) : List String → Bool
  | [] => true
  | opt :: rest =>
    match optionLetter used opt with
    | none => true
    | some c => !(used.contains c.toLower) && capsFresh (used ++ [c.toLower]) rest

theorem assignGo_ok_iff : ∀ (opts : List String) (used : List Char)
    (ls : List Char),
    assignGo used opts = .ok ls ↔
      (ls.length = opts.length ∧
       ∀ k (hk : k < opts.length) (hl : k < ls.length),
         ∃ c, optionLetter (used ++ ls.take k) (opts.get ⟨k, hk⟩) = some c ∧
           ls.get ⟨k, hl⟩ = c.toLower) := by
  intro opts
  induction opts with
  | nil =>
    intro used ls
    constructor
    · intro h
      simp [assignGo] at h
      subst h
      simp
    · intro ⟨hlen, _⟩
      have : ls = [] := List.eq_nil_of_length_eq_zero (by simpa using hlen)
      subst this
      rfl
  | cons opt rest ih =>
    intro used ls
    constructor
    · intro h
      simp only [assignGo] at h
      cases hol : optionLetter used opt with
      | none => simp only [hol] at h; exact Except.noConfusion h
      | some c =>
        simp only [hol] at h
        cases hrest : assignGo (used ++ [c.toLower]) rest with
        | error e => simp only [hrest] at h; exact Except.noConfusion h
        | ok ls' =>
          simp only [hrest, Except.ok.injEq] at h
          subst h
          obtain ⟨hlen', hspec'⟩ := (ih (used ++ [c.toLower]) ls').mp hrest
          refine ⟨by simpa using hlen', ?_⟩
          intro k hk hl
          match k with
          | 0 => exact ⟨c, by simpa using hol, by simp⟩
          | k' + 1 =>
            have hk' : k' < rest.length := by simpa using hk
            have hl' : k' < ls'.length := by simpa using hl
            obtain ⟨c', hc', he'⟩ := hspec' k' hk' hl'
            refine ⟨c', ?_, by simpa using he'⟩
            simpa [List.append_assoc] using hc'
    · intro ⟨hlen, hspec⟩
      cases ls with
      | nil => simp at hlen
      | cons l0 ls' =>
        obtain ⟨c, hc, he⟩ := hspec 0 (by simp) (by simp)
        simp only [List.take_zero, List.append_nil, List.get] at hc he
        have hrec : assignGo (used ++ [c.toLower]) rest = .ok ls' := by
          apply (ih (used ++ [c.toLower]) ls').mpr
          refine ⟨by simpa using hlen, ?_⟩
          intro k hk hl
          obtain ⟨c', hc', he'⟩ := hspec (k + 1) (by simpa using hk)
            (by simpa using hl)
          refine ⟨c', ?_, by simpa using he'⟩
          rw [he] at hc'
          simpa [List.append_assoc] using hc'
        simp [assignGo, hc, hrec, he]

theorem assignGo_err_iff : ∀ (opts : List String) (used : List Char),
    (∃ e, assignGo used opts = .error e) ↔
      (∃ k, ∃ hk : k < opts.length, ∃ pre : List Char,
        assignGo used (opts.take k) = .ok pre ∧
        optionLetter (used ++ pre) (opts.get ⟨k, hk⟩) = none) := by
  intro opts
  induction opts with
  | nil =>
    intro used
    constructor
    · intro ⟨e, h⟩; exact Except.noConfusion h
    · intro ⟨k, hk, _⟩; exact absurd hk (by simp)
  | cons opt rest ih =>
    intro used
    constructor
    · intro ⟨e, h⟩
      simp only [assignGo] at h
      cases hol : optionLetter used opt with
      | none =>
        exact ⟨0, by simp, [], by simp [assignGo], by simpa using hol⟩
      | some c =>
        simp only [hol] at h
        cases hrest : assignGo (used ++ [c.toLower]) rest with
        | error e' =>
          obtain ⟨k, hk, pre, hpre, hnone⟩ :=
            (ih (used ++ [c.toLower])).mp ⟨e', hrest⟩
          refine ⟨k + 1, by simpa using hk, c.toLower :: pre, ?_, ?_⟩
          · simp [List.take_succ_cons, assignGo, hol, hpre]
          · simpa [List.append_assoc] using hnone
        | ok ls' =>
          simp only [hrest] at h
          exact Except.noConfusion h
    · intro ⟨k, hk, pre, hpre, hnone⟩
      match k with
      | 0 =>
        simp only [List.take_zero, assignGo, Except.ok.injEq] at hpre
        subst hpre
        simp only [List.append_nil, List.get] at hnone
        exact ⟨"no unambiguous lettering found", by simp [assignGo, hnone]⟩
      | k' + 1 =>
        simp only [List.take_succ_cons, assignGo] at hpre
        cases hol : optionLetter used opt with
        | none => simp only [hol] at hpre; exact Except.noConfusion hpre
        | some c =>
          simp only [hol] at hpre
          cases hpre' : assignGo (used ++ [c.toLower]) (rest.take k') with
          | error e' => simp only [hpre'] at hpre; exact Except.noConfusion hpre
          | ok pre' =>
            simp only [hpre', Except.ok.injEq] at hpre
            subst hpre
            have hk' : k' < rest.length := by simpa using hk
            obtain ⟨e, he⟩ := (ih (used ++ [c.toLower])).mpr
              ⟨k', hk', pre', hpre', by simpa [List.append_assoc] using hnone⟩
            exact ⟨e, by simp [assignGo, hol, he]⟩

theorem assignGo_fresh_distinct : ∀ (opts : List String) (used ls : List Char),
    assignGo used opts = .ok ls → capsFresh used opts = true →
    (∀ x ∈ ls, ¬ used.contains x = true) ∧ ls.Pairwise (· ≠ ·) := by
  intro opts
  induction opts with
  | nil =>
    intro used ls h _
    simp [assignGo] at h
    subst h
    simp
  | cons opt rest ih =>
    intro used ls h hf
    simp only [assignGo] at h
    cases hol : optionLetter used opt with
    | none => simp only [hol] at h; exact Except.noConfusion h
    | some c =>
      simp only [hol] at h
      cases hrest : assignGo (used ++ [c.toLower]) rest with
      | error e => simp only [hrest] at h; exact Except.noConfusion h
      | ok ls' =>
        simp only [hrest, Except.ok.injEq] at h
        subst h
        simp only [capsFresh, hol, Bool.and_eq_true, Bool.not_eq_true'] at hf
        obtain ⟨hnotin, hf'⟩ := hf
        obtain ⟨hsub, hpw⟩ := ih (used ++ [c.toLower]) ls' hrest hf'
        constructor
        · intro x hx
          rcases List.mem_cons.mp hx with hx0 | hx'
          · subst hx0; rw [hnotin]; simp
          · intro hc
            refine hsub x hx' ?_
            rw [List.elem_iff] at hc ⊢
            exact List.mem_append_left _ hc
        · refine List.Pairwise.cons ?_ hpw
          intro y hy heq
          refine hsub y hy ?_
          rw [List.elem_iff]
          subst heq
          exact List.mem_append_right _ (List.mem_singleton.mpr rfl)

/-- C2 (amended): input_options assigns one lowercased shortcut per option;
a label containing a capitalized alphabetic character gets its first such
character (even when it has several capitals, and without any check against
earlier shortcuts), and a label without one gets its first alphabetic
character not among the earlier shortcuts; the ambiguous lettering error is
raised exactly when some label without a capital has all its alphabetic
characters already taken; the shortcuts are pairwise distinct provided every
chosen letter, lowercased, is fresh at its turn (which the capital branch
does not itself guarantee). -/
theorem C2_input_options_letters_amended : ∀ opts : List String,
    (∀ ls, assignLetters opts = .ok ls ↔ IsShortcutAssignment opts ls) ∧
    (∀ ls, assignLetters opts = .ok ls → ls.length = opts.length) ∧
    ((∃ e, assignLetters opts = .error e) ↔
      (∃ k, ∃ hk : k < opts.length, ∃ pre : List Char,
        assignLetters (opts.take k) = .ok pre ∧
        optionLetter pre (opts.get ⟨k, hk⟩) = none)) ∧
    (∀ ls, assignLetters opts = .ok ls → capsFresh [] opts = true →
      ls.Pairwise (· ≠ ·)) := by
  intro opts
  refine ⟨?_, ?_, ?_, ?_⟩
  · intro ls
    have := assignGo_ok_iff opts [] ls
    simpa [assignLetters, IsShortcutAssignment] using this
  · intro ls h
    exact ((assignGo_ok_iff opts [] ls).mp h).1
  · have := assignGo_err_iff opts []
    simpa [assignLetters] using this
  · intro ls h hf
    exact (assignGo_fresh_distinct opts [] ls h hf).2

/-- C2 witness: the amended theorem applied to the five option labels of the
no candidate prompt, whose inferred shortcuts u, s, e, i, b are pairwise
distinct. -/
theorem C2_input_options_letters_amended_witness :
    assignLetters ["Use as-is", "Skip", "Enter search", "enter Id", "aBort"]
      = Except.ok ['u', 's', 'e', 'i', 'b'] ∧
    (['u', 's', 'e', 'i', 'b'] : List Char).Pairwise (· ≠ ·) :=
  ⟨rfl, (C2_input_options_letters_amended
      ["Use as-is", "Skip", "Enter search", "enter Id", "aBort"]).2.2.2
    ['u', 's', 'e', 'i', 'b'] rfl rfl⟩

/-! ## Claim C4: response loop of input_options -/

/-- C4 counterexample: the response skip (four characters) is accepted
through its first character and returns the shortcut s, so accepted
responses are not limited to single letters; and with a numeric range and
require false the computed default is the low end of the range, selected by
an empty line, so a default does exist when a numeric range is present. -/
theorem C4_respLoop_counterexample :
    respLoop ['s', 'u'] none (some (PyV.s "s")) ["skip"] =
      some (Resp.letter 's') ∧
    ("skip" : String).length ≠ 1 ∧
    computeDefault false none (some (1, 5)) 's' = some (PyV.i 1) ∧
    respLoop ['s', 'u'] (some (1, 5)) (some (PyV.i 1)) [""] =
      some (Resp.num 1) := by
  refine ⟨rfl, by decide, rfl, rfl⟩

/-- Acceptance of a response by its first character, from the amended claim:
a response is accepted when its first character matches a shortcut letter. -/
def headLetter (letters : List Char) (r : String) : Option Resp :=
  match r.data.head? with
  | some c => if letters.contains c then some (Resp.letter c) else none
  | none => none

/-- Validation of one resp value, from the amended claim: when a numeric
range is supplied, an integer value or integer literal is accepted exactly
when it lies within the inclusive range, and a string that is not an integer
literal falls back to the first character rule; without a numeric range only
the first character rule applies and an integer value is never accepted. -/
def specValResp (letters : List Char) (numrange : Option (Int × Int)) :
    PyV → Option Resp
  | PyV.i n =>
    match numrange with
    | some (lo, hi) => if lo ≤ n ∧ n ≤ hi then some (Resp.num n) else none
    | none => none
  | PyV.s r =>
    match numrange with
    | some (lo, hi) =>
      match pyParseInt r with
      | some n => if lo ≤ n ∧ n ≤ hi then some (Resp.num n) else none
      | none => headLetter letters r
    | none => headLetter letters r

/-- One response line of the amended claim: an empty line (after stripping)
selects the default, which is then validated like a typed value; any other
line is validated directly; none means the line is rejected and the loop
reads again after the fallback prompt. -/
def specStep (letters : List Char) (numrange : Option (Int × Int))
    (default : Option PyV) (line : String) : Option Resp :=
  let r := normResp line
  if r = "" then
    match default with
    | some d => specValResp letters numrange d
    | none => none
  else specValResp letters numrange (PyV.s r)

/-- C4 (amended): the response loop accepts, per line, exactly what specStep
accepts: an empty line selects the default when one exists (and with require
false a default always exists: the caller supplied letter, else the low end
of the numeric range when one is present, else the first shortcut); a
response is otherwise accepted when it is an integer literal inside the
numeric range or when its first character, case folded, matches a shortcut;
every rejected line causes another read, without bound, so a stream of
rejected lines never returns. -/
theorem letterStage_s : ∀ (letters : List Char) (str : String),
    letterStage letters (some (PyV.s str)) = headLetter letters str := by
  intro letters str
  cases hstr : str.data with
  | nil =>
    have hsempty : str = "" := by
      cases str with
      | mk l => simp at hstr; simp [hstr]
    subst hsempty
    rfl
  | cons c cs =>
    have hne : str ≠ "" := by
      intro he
      subst he
      simp at hstr
    simp [letterStage, headLetter, truthy, hne, hstr]

theorem respTry_eq_specStep : ∀ (letters : List Char) numrange default line,
    respTry letters numrange default line =
      specStep letters numrange default line := by
  intro letters numrange default line
  simp only [respTry, specStep]
  by_cases hr : normResp line = ""
  · rw [hr]
    have htr : truthy (PyV.s "") = false := by simp [truthy]
    cases default with
    | none =>
      simp only [Option.isSome_none, Bool.false_eq_true, false_and, if_neg,
        not_false_eq_true]
      cases numrange with
      | none => simp [letterStage, truthy]
      | some p =>
        cases p with
        | mk lo hi => simp [tryInt, pyParseInt, letterStage, truthy]
    | some d =>
      have hcond : (Option.some d).isSome = true ∧
          ¬ truthy (PyV.s "") = true := by simp [htr]
      rw [if_pos hcond]
      simp only [Option.get!]
      cases d with
      | s str =>
        simp only [specValResp]
        cases numrange with
        | none => exact letterStage_s letters str
        | some p =>
          cases p with
          | mk lo hi =>
            simp only [tryInt]
            cases hp : pyParseInt str with
            | some n => rfl
            | none => exact letterStage_s letters str
      | i n =>
        simp only [specValResp]
        cases numrange with
        | none => simp [letterStage, truthy]
        | some p =>
          cases p with
          | mk lo hi =>
            simp only [tryInt]
            by_cases hin : lo ≤ n ∧ n ≤ hi
            · simp [hin]
            · simp [hin, letterStage]
  · have htr : truthy (PyV.s (normResp line)) = true := by
      simp [truthy, hr]
    have hcond : ¬ (default.isSome = true ∧
        ¬ truthy (PyV.s (normResp line)) = true) := by simp [htr]
    rw [if_neg hcond, if_neg hr]
    simp only [specValResp]
    cases numrange with
    | none => exact letterStage_s letters (normResp line)
    | some p =>
      cases p with
      | mk lo hi =>
        simp only [tryInt]
        cases hp : pyParseInt (normResp line) with
        | some n => rfl
        | none => exact letterStage_s letters (normResp line)

/-- C4 (amended): the response loop accepts, per line, exactly what specStep
accepts: an empty line selects the default when one exists (and with require
false a default always exists: the caller supplied letter, else the low end
of the numeric range when one is present, else the first shortcut); a
response is otherwise accepted when it is an integer literal inside the
numeric range or when its first character, case folded, matches a shortcut;
every rejected line causes another read, without bound, so a stream of
rejected lines never returns. -/
theorem C4_respLoop_amended :
    (∀ letters numrange default,
      respLoop letters numrange default [] = none) ∧
    (∀ letters numrange default line rest,
      respLoop letters numrange default (line :: rest) =
        match specStep letters numrange default line with
        | some v => some v
        | none => respLoop letters numrange default rest) ∧
    (∀ d nr fl, computeDefault true d nr fl = none) ∧
    (∀ s nr fl, computeDefault false (some s) nr fl = some (PyV.s s)) ∧
    (∀ lo hi fl, computeDefault false none (some (lo, hi)) fl =
      some (PyV.i lo)) ∧
    (∀ fl, computeDefault false none none fl =
      some (PyV.s (String.mk [fl.toLower]))) ∧
    (∀ letters numrange default lines,
      (∀ line ∈ lines, specStep letters numrange default line = none) →
      respLoop letters numrange default lines = none) := by
  have hstep : ∀ (letters : List Char) numrange default line rest,
      respLoop letters numrange default (line :: rest) =
        match specStep letters numrange default line with
        | some v => some v
        | none => respLoop letters numrange default rest := by
    intro letters numrange default line rest
    simp only [respLoop]
    rw [respTry_eq_specStep]
  refine ⟨fun _ _ _ => rfl, hstep, fun _ _ _ => rfl, fun _ _ _ => rfl,
    fun _ _ _ => rfl, fun _ => rfl, ?_⟩
  intro letters numrange default lines hrej
  induction lines with
  | nil => rfl
  | cons line rest ih =>
    rw [hstep letters numrange default line rest]
    rw [hrej line (List.mem_cons_self line rest)]
    exact ih (fun l hl => hrej l (List.mem_cons_of_mem line hl))

/-- C4 witness: the amended theorem applied concretely: an empty line under
require false with a numeric range selects the low bound, and a stream of
two rejected lines returns nothing. -/
theorem C4_respLoop_amended_witness :
    respLoop ['s', 'u'] (some (1, 5)) (some (PyV.i 1)) ("" :: []) =
      some (Resp.num 1) ∧
    respLoop ['s', 'u'] none (some (PyV.s "s")) ["zz", "9"] = none := by
  constructor
  · rw [C4_respLoop_amended.2.1 ['s', 'u'] (some (1, 5)) (some (PyV.i 1)) "" []]
    rfl
  · exact C4_respLoop_amended.2.2.2.2.2.2 ['s', 'u'] none (some (PyV.s "s"))
      ["zz", "9"] (by decide)

/-! ## Claim C9: colordiff of a string with itself

The sequence matcher facts needed: for identical sequences the dynamic
program of find_longest_match only ever improves the best block on the
diagonal, and the junk free extension loops then stretch any diagonal block
to the whole sequence, so get_opcodes returns one equal span. -/

/-- Character of l at position i, with the null default used by the matcher
embedding. -/
def chAt (l : List Char) (i : Nat) : Char := l.getD i (Char.ofNat 0)

/-- Ascending list of the positions of character c in l. -/
def posList (l : List Char) (c : Char) : List Nat :=
  (List.range l.length).filter (fun k => chAt l k = c)

theorem mem_posList {l : List Char} {c : Char} {j : Nat} :
    j ∈ posList l c ↔ j < l.length ∧ chAt l j = c := by
  simp [posList, List.mem_filter, List.mem_range]

theorem posList_pairwise (l : List Char) (c : Char) :
    (posList l c).Pairwise (· < ·) :=
  (List.pairwise_lt_range l.length).filter _

theorem posList_cons (x : Char) (rest : List Char) (c : Char) :
    posList (x :: rest) c =
      (if x = c then [0] else []) ++ (posList rest c).map (· + 1) := by
  simp only [posList, List.length_cons, List.range_succ_eq_map,
    List.filter_cons]
  have h0 : (decide (chAt (x :: rest) 0 = c)) = decide (x = c) := rfl
  rw [h0]
  have hmap : (List.map Nat.succ (List.range rest.length)).filter
      (fun k => decide (chAt (x :: rest) k = c)) =
      ((List.range rest.length).filter
        (fun k => decide (chAt rest k = c))).map Nat.succ := by
    rw [List.filter_map]
    congr 1
  rw [hmap]
  have hsucc : List.map Nat.succ ((List.range rest.length).filter
      (fun k => decide (chAt rest k = c))) =
      (posList rest c).map (· + 1) := by
    simp only [posList]
  by_cases hx : x = c
  · rw [if_pos (by simp [hx]), if_pos hx, hsucc]
    rfl
  · rw [if_neg (by simp [hx]), if_neg hx, hsucc]
    rfl

theorem b2jRaw_spec : ∀ (b : List Char) (i0 : Nat) (d : Char → List Nat)
    (c : Char), b2jRaw b i0 d c = d c ++ (posList b c).map (i0 + ·) := by
  intro b
  induction b with
  | nil => intro i0 d c; simp [b2jRaw, posList]
  | cons x rest ih =>
    intro i0 d c
    simp only [b2jRaw]
    rw [ih (i0 + 1) _ c, posList_cons]
    simp only [List.map_append, List.map_map]
    by_cases hx : x = c
    · rw [if_pos (by rw [hx]), if_pos hx]
      simp only [List.map_cons, List.map_nil, List.append_assoc]
      congr 2 <;> simp <;>
        first
          | omega
          | (intro a ha
             omega)
    · rw [if_neg (fun h => hx h.symm), if_neg hx]
      simp only [List.map_nil, List.nil_append]
      congr 1
      refine List.map_congr_left ?_
      intro a _
      simp [Function.comp]
      omega

theorem b2jDict_spec (b : List Char) (c : Char) :
    b2jDict b c = posList b c := by
  rw [b2jDict, b2jRaw_spec]
  simp

/-- The final b2j dictionary of the matcher either drops a character
entirely (junk or popular purge) or holds its full ascending position
list. -/
theorem b2jFinal_spec (b : List Char) (c : Char) :
    b2jFinal (fun _ => false) true b c = [] ∨
    b2jFinal (fun _ => false) true b c = posList b c := by
  simp only [b2jFinal]
  split
  · exact Or.inl rfl
  · split
    · exact Or.inl rfl
    · exact Or.inr (b2jDict_spec b c)

/-- Diagonal run length of the dynamic program at index i: the length of the
maximal run of kept positions ending at i (for identical sequences). -/
def vRun (get : Char → List Nat) (l : List Char) : Nat → Nat
  | 0 => if 0 ∈ get (chAt l 0) then 1 else 0
  | i + 1 => if (i + 1) ∈ get (chAt l (i + 1)) then vRun get l i + 1 else 0

/-- Value of the j2len dictionary after the outer iteration for index i, at
key j (for identical sequences). -/
def oChain (get : Char → List Nat) (l : List Char) : Nat → Nat → Nat
  | 0, j => if j ∈ get (chAt l 0) then 1 else 0
  | i + 1, j =>
    if j ∈ get (chAt l (i + 1)) then
      (if j = 0 then 0 else oChain get l i (j - 1)) + 1
    else 0

/-- Largest diagonal run among indices up to i. -/
def MRun (get : Char → List Nat) (l : List Char) : Nat → Nat
  | 0 => vRun get l 0
  | i + 1 => max (MRun get l i) (vRun get l (i + 1))

theorem mem_get_lt {get : Char → List Nat} {l : List Char}
    (hget : ∀ c, get c = [] ∨ get c = posList l c) {c : Char} {j : Nat}
    (hj : j ∈ get c) : j < l.length ∧ chAt l j = c := by
  rcases hget c with h | h
  · rw [h] at hj; cases hj
  · rw [h] at hj; exact mem_posList.mp hj

theorem mem_get_self {get : Char → List Nat} {l : List Char}
    (hget : ∀ c, get c = [] ∨ get c = posList l c) {c : Char} {j : Nat}
    (hj : j ∈ get c) : j ∈ get (chAt l j) := by
  rw [(mem_get_lt hget hj).2]
  exact hj

theorem mem_get_of_mem {get : Char → List Nat} {l : List Char}
    (hget : ∀ c, get c = [] ∨ get c = posList l c) {i j : Nat}
    (hi : i < l.length) (hj : j ∈ get (chAt l i)) : i ∈ get (chAt l i) := by
  rcases hget (chAt l i) with h | h
  · rw [h] at hj; cases hj
  · rw [h]
    exact mem_posList.mpr ⟨hi, rfl⟩

theorem vRun_pos {get : Char → List Nat} {l : List Char} {j : Nat}
    (hj : j ∈ get (chAt l j)) : 1 ≤ vRun get l j := by
  cases j with
  | zero => simp [vRun, hj]
  | succ j => simp [vRun, hj]

theorem vRun_succ_mem {get : Char → List Nat} {l : List Char} {j : Nat}
    (hj : (j + 1) ∈ get (chAt l (j + 1))) :
    vRun get l (j + 1) = vRun get l j + 1 := by
  simp [vRun, hj]

theorem o_le_vj {get : Char → List Nat} {l : List Char}
    (hget : ∀ c, get c = [] ∨ get c = posList l c) :
    ∀ i j, oChain get l i j ≤ vRun get l j := by
  intro i
  induction i with
  | zero =>
    intro j
    simp only [oChain]
    split
    · exact vRun_pos (mem_get_self hget (by assumption))
    · omega
  | succ i ih =>
    intro j
    simp only [oChain]
    split
    · rename_i hj
      cases j with
      | zero => simpa using vRun_pos (mem_get_self hget hj)
      | succ j' =>
        rw [vRun_succ_mem (mem_get_self hget hj)]
        simp only [Nat.add_sub_cancel]
        have := ih j'
        simp only [Nat.succ_ne_zero, if_neg, not_false_eq_true]
        omega
    · omega
  
theorem o_le_vi {get : Char → List Nat} {l : List Char}
    (hget : ∀ c, get c = [] ∨ get c = posList l c) :
    ∀ i j, i < l.length → oChain get l i j ≤ vRun get l i := by
  intro i
  induction i with
  | zero =>
    intro j hi
    simp only [oChain]
    split
    · exact vRun_pos (mem_get_of_mem hget hi (by assumption))
    · omega
  | succ i ih =>
    intro j hi
    simp only [oChain]
    split
    · rename_i hj
      rw [vRun_succ_mem (mem_get_of_mem hget hi hj)]
      cases j with
      | zero => simp
      | succ j' =>
        have := ih j' (by omega)
        simp only [Nat.succ_ne_zero, if_neg, not_false_eq_true,
          Nat.add_sub_cancel]
        omega
    · omega

theorem o_diag {get : Char → List Nat} {l : List Char} :
    ∀ i, oChain get l i i = vRun get l i := by
  intro i
  induction i with
  | zero => rfl
  | succ i ih =>
    simp only [oChain, vRun, Nat.succ_ne_zero, if_neg, not_false_eq_true,
      Nat.add_sub_cancel]
    rw [ih]

theorem v_le_M {get : Char → List Nat} {l : List Char} :
    ∀ i j, j ≤ i → vRun get l j ≤ MRun get l i := by
  intro i
  induction i with
  | zero =>
    intro j hj
    have : j = 0 := by omega
    subst this
    exact le_refl _
  | succ i ih =>
    intro j hj
    rcases Nat.lt_or_ge j (i + 1) with h | h
    · exact le_trans (ih j (by omega)) (Nat.le_max_left _ _)
    · have : j = i + 1 := by omega
      subst this
      exact Nat.le_max_right _ _

theorem v_le_succ {get : Char → List Nat} {l : List Char} :
    ∀ i, vRun get l i ≤ i + 1 := by
  intro i
  induction i with
  | zero => simp only [vRun]; split <;> omega
  | succ i ih => simp only [vRun]; split <;> omega

theorem M_mono {get : Char → List Nat} {l : List Char} (i : Nat) :
    MRun get l i ≤ MRun get l (i + 1) := Nat.le_max_left _ _

theorem vRun_zero_of_not_mem {get : Char → List Nat} {l : List Char}
    {i : Nat} (h : i ∉ get (chAt l i)) : vRun get l i = 0 := by
  cases i with
  | zero => simp [vRun, h]
  | succ i => simp [vRun, h]

theorem oChain_zero_of_not_mem {get : Char → List Nat} {l : List Char}
    {i j : Nat} (h : j ∉ get (chAt l i)) : oChain get l i j = 0 := by
  cases i with
  | zero => simp [oChain, h]
  | succ i => simp [oChain, h]

theorem flmInner_spec {get : Char → List Nat} {l : List Char}
    (hget : ∀ c, get c = [] ∨ get c = posList l c)
    (i : Nat) (hi : i < l.length) (prev : Nat → Nat)
    (hprev : ∀ j, prev j =
      (match i with | 0 => 0 | i' + 1 => oChain get l i' j)) :
    ∀ (js pre : List Nat) (newD : Nat → Nat) (bi bs : Nat),
      get (chAt l i) = pre ++ js →
      (∀ j, newD j = if j ∈ pre then oChain get l i j else 0) →
      bi + bs ≤ l.length →
      bs ≤ MRun get l i →
      (∀ i', i = i' + 1 → MRun get l i' ≤ bs) →
      (i ∈ js ∨ vRun get l i ≤ bs) →
      ∃ (newD' : Nat → Nat) (bi' bs' : Nat),
        flmInner prev 0 l.length i js newD (bi, bi, bs) =
          (newD', (bi', bi', bs')) ∧
        (∀ j, newD' j = if j ∈ pre ++ js then oChain get l i j else 0) ∧
        bi' + bs' ≤ l.length ∧ bs ≤ bs' ∧ bs' ≤ MRun get l i ∧
        vRun get l i ≤ bs' := by
  intro js
  induction js with
  | nil =>
    intro pre newD bi bs hsplit hdict hsum hub hlow hdiag
    refine ⟨newD, bi, bs, rfl, by simpa using hdict, hsum, le_refl _, hub, ?_⟩
    rcases hdiag with h | h
    · cases h
    · exact h
  | cons j0 tail ih =>
    intro pre newD bi bs hsplit hdict hsum hub hlow hdiag
    have hj0mem : j0 ∈ get (chAt l i) := by
      rw [hsplit]
      simp
    have hj0lt : j0 < l.length := (mem_get_lt hget hj0mem).1
    have hpwjs : (j0 :: tail).Pairwise (· < ·) := by
      have hpw : (get (chAt l i)).Pairwise (· < ·) := by
        rcases hget (chAt l i) with h | h
        · rw [h]; exact List.Pairwise.nil
        · rw [h]; exact posList_pairwise l (chAt l i)
      have hsub : (j0 :: tail).Sublist (get (chAt l i)) := by
        rw [hsplit]
        exact (List.sublist_append_right pre (j0 :: tail))
      exact hpw.sublist hsub
    have hsplit' : get (chAt l i) = (pre ++ [j0]) ++ tail := by
      rw [hsplit]
      simp
    simp only [flmInner]
    rw [if_neg (by omega), if_neg (by omega)]
    have hk : (if j0 = 0 then 0 else prev (j0 - 1)) + 1 =
        oChain get l i j0 := by
      cases i with
      | zero =>
        have h1 : prev (j0 - 1) = 0 := by rw [hprev]
        simp only [oChain, hj0mem, if_pos, h1]
        split <;> rfl
      | succ i' =>
        have h1 : prev (j0 - 1) = oChain get l i' (j0 - 1) := by rw [hprev]
        simp only [oChain, hj0mem, if_pos, h1]
    rw [hk]
    have hdict' : ∀ j,
        (fun x => if x = j0 then oChain get l i j0 else newD x) j =
        if j ∈ pre ++ [j0] then oChain get l i j else 0 := by
      intro j
      by_cases hjj : j = j0
      · subst hjj
        simp
      · simp only [if_neg hjj, hdict j]
        by_cases hjp : j ∈ pre
        · rw [if_pos hjp, if_pos (by simp [hjp])]
        · rw [if_neg hjp, if_neg (by simp [hjp, hjj])]
    by_cases hupd : oChain get l i j0 > bs
    · -- strict improvement: only possible on the diagonal
      have hj0i : j0 = i := by
        by_contra hne
        rcases Nat.lt_or_ge j0 i with hlt | hge
        · obtain ⟨i', rfl⟩ : ∃ i', i = i' + 1 := ⟨i - 1, by omega⟩
          have h1 : oChain get l (i' + 1) j0 ≤ vRun get l j0 :=
            o_le_vj hget _ _
          have h2 : vRun get l j0 ≤ MRun get l i' :=
            v_le_M _ _ (by omega)
          have h3 := hlow i' rfl
          omega
        · have hgt : j0 > i := by omega
          rcases hdiag with hmem | hv
          · rcases List.mem_cons.mp hmem with h | h
            · omega
            · have := List.rel_of_pairwise_cons hpwjs h
              omega
          · have h1 : oChain get l i j0 ≤ vRun get l i :=
              o_le_vi hget _ _ hi
            omega
      subst hj0i
      rw [if_pos hupd]
      have hov : oChain get l j0 j0 = vRun get l j0 := o_diag j0
      have hvs : vRun get l j0 ≤ j0 + 1 := v_le_succ j0
      obtain ⟨newD', bi', bs', hrec, hd', hs', hmono', hub', hv'⟩ :=
        ih (pre ++ [j0]) _ (j0 + 1 - oChain get l j0 j0)
          (oChain get l j0 j0) hsplit' hdict'
          (by rw [hov]; omega)
          (by rw [hov]; exact v_le_M _ _ (le_refl _))
          (fun i' hi' => by
            have := hlow i' hi'
            omega)
          (Or.inr (by rw [hov]))
      exact ⟨newD', bi', bs', hrec, by simpa using hd', hs', by omega, hub',
        hv'⟩
    · -- no improvement: the best block is unchanged
      have hdiag' : i ∈ tail ∨ vRun get l i ≤ bs := by
        rcases hdiag with hmem | hv
        · rcases List.mem_cons.mp hmem with h | h
          · subst h
            right
            have := @o_diag get l i
            omega
          · exact Or.inl h
        · exact Or.inr hv
      rw [if_neg hupd]
      obtain ⟨newD', bi', bs', hrec, hd', hs', hmono', hub', hv'⟩ :=
        ih (pre ++ [j0]) _ bi bs hsplit' hdict' hsum hub hlow hdiag'
      exact ⟨newD', bi', bs', hrec, by simpa using hd', hs', hmono', hub',
        hv'⟩

theorem chAt_eq (l : List Char) (i : Nat) :
    l.getD i (Char.ofNat 0) = chAt l i := rfl

theorem flmOuter_spec {get : Char → List Nat} {l : List Char}
    (hget : ∀ c, get c = [] ∨ get c = posList l c) :
    ∀ (cnt i0 : Nat) (j2l : Nat → Nat) (bi bs : Nat),
      i0 + cnt = l.length →
      (∀ j, j2l j =
        (match i0 with | 0 => 0 | i' + 1 => oChain get l i' j)) →
      bi + bs ≤ l.length →
      bs = (match i0 with | 0 => 0 | i' + 1 => MRun get l i') →
      ∃ (D : Nat → Nat) (bi' bs' : Nat),
        flmOuter get l 0 l.length (List.range' i0 cnt) j2l (bi, bi, bs) =
          (D, (bi', bi', bs')) ∧
        bi' + bs' ≤ l.length := by
  intro cnt
  induction cnt with
  | zero =>
    intro i0 j2l bi bs hcnt hprev hsum hbs
    exact ⟨j2l, bi, bs, rfl, hsum⟩
  | succ cnt ih =>
    intro i0 j2l bi bs hcnt hprev hsum hbs
    have hi0 : i0 < l.length := by omega
    have hub : bs ≤ MRun get l i0 := by
      rw [hbs]
      cases i0 with
      | zero => exact Nat.zero_le _
      | succ i' => exact M_mono i'
    have hlow : ∀ i', i0 = i' + 1 → MRun get l i' ≤ bs := by
      intro i' hi'
      subst hi'
      rw [hbs]
    have hdiag : i0 ∈ get (chAt l i0) ∨ vRun get l i0 ≤ bs := by
      by_cases hmem : i0 ∈ get (chAt l i0)
      · exact Or.inl hmem
      · exact Or.inr (by rw [vRun_zero_of_not_mem hmem]; omega)
    obtain ⟨newD', bi1, bs1, hrec, hd', hs', hmono', hub', hv'⟩ :=
      flmInner_spec hget i0 hi0 j2l
        (by
          intro j
          cases i0 with
          | zero => exact hprev j
          | succ i' => exact hprev j)
        (get (chAt l i0)) [] (fun _ => 0)
        bi bs rfl (by simp) hsum hub hlow hdiag
    have hdfull : ∀ j, newD' j = oChain get l i0 j := by
      intro j
      rw [hd' j]
      by_cases hj : j ∈ get (chAt l i0)
      · rw [if_pos (by simpa using hj)]
      · rw [if_neg (by simpa using hj), oChain_zero_of_not_mem hj]
    have hbs1 : bs1 = MRun get l i0 := by
      cases i0 with
      | zero =>
        have h1 : MRun get l 0 = vRun get l 0 := rfl
        omega
      | succ i' =>
        have h1 : MRun get l (i' + 1) =
            max (MRun get l i') (vRun get l (i' + 1)) := rfl
        have h2 : MRun get l i' ≤ bs1 := by
          rw [hbs] at hmono'
          exact hmono'
        omega
    have hrange : List.range' i0 (cnt + 1) = i0 :: List.range' (i0 + 1) cnt :=
      rfl
    rw [hrange]
    simp only [flmOuter, chAt_eq]
    rw [hrec]
    exact ih (i0 + 1) newD' bi1 bs1 (by omega)
      (fun j => hdfull j) hs' hbs1

theorem extBackGo_diag (l : List Char) :
    ∀ (fuel d bs : Nat), d < fuel →
      extBackGo false (fun _ => false) l l 0 0 fuel d d bs = (0, 0, d + bs) := by
  intro fuel
  induction fuel with
  | zero => intro d bs h; omega
  | succ fuel ih =>
    intro d bs h
    simp only [extBackGo]
    split
    · rename_i hc
      obtain ⟨hd, -⟩ := hc
      have hlt : d - 1 < fuel := by omega
      have harith : d - 1 + (bs + 1) = d + bs := by omega
      rw [ih (d - 1) (bs + 1) hlt, harith]
    · rename_i hc
      have hd : d = 0 := by
        by_contra hne
        exact hc ⟨by omega, by omega, trivial, trivial⟩
      subst hd
      simp

theorem extBack_diag (l : List Char) (d bs : Nat) :
    extBack false (fun _ => false) l l 0 0 d d bs = (0, 0, d + bs) :=
  extBackGo_diag l (d + 1) d bs (by omega)

theorem extFwdGo_diag (l : List Char) :
    ∀ (fuel k : Nat), l.length - k < fuel → k ≤ l.length →
      extFwdGo false (fun _ => false) l l l.length l.length fuel 0 0 k =
        (0, 0, l.length) := by
  intro fuel
  induction fuel with
  | zero => intro k h1 h2; omega
  | succ fuel ih =>
    intro k h1 h2
    simp only [extFwdGo]
    split
    · rename_i hc
      obtain ⟨hk, -⟩ := hc
      exact ih (k + 1) (by omega) (by omega)
    · rename_i hc
      have hk : k = l.length := by
        by_contra hne
        exact hc ⟨by omega, by omega, trivial, trivial⟩
      subst hk
      rfl

theorem extFwd_diag (l : List Char) (k : Nat) (hk : k ≤ l.length) :
    extFwd false (fun _ => false) l l l.length l.length 0 0 k =
      (0, 0, l.length) :=
  extFwdGo_diag l (l.length + 1) k (by omega) hk

theorem extBack_junk_noop (l : List Char) (n : Nat) :
    extBack true (fun _ => false) l l 0 0 0 0 n = (0, 0, n) := by
  simp only [extBack, extBackGo]
  split
  · rename_i hc
    obtain ⟨h0, -⟩ := hc
    omega
  · rfl

theorem extFwd_junk_noop (l : List Char) :
    extFwd true (fun _ => false) l l l.length l.length 0 0 l.length =
      (0, 0, l.length) := by
  simp only [extFwd, extFwdGo]
  split
  · rename_i hc
    obtain ⟨h0, -⟩ := hc
    omega
  · rfl

theorem flm_self {get : Char → List Nat} {l : List Char}
    (hget : ∀ c, get c = [] ∨ get c = posList l c) :
    find_longest_match get (fun _ => false) l l 0 l.length 0 l.length =
      (0, 0, l.length) := by
  obtain ⟨D, bi', bs', houter, hsum⟩ := flmOuter_spec hget l.length 0
    (fun _ => 0) 0 0 (by omega) (fun j => rfl) (by omega) rfl
  simp only [find_longest_match, Nat.sub_zero]
  rw [houter]
  simp only
  rw [extBack_diag l bi' bs', extFwd_diag l (bi' + bs') hsum,
    extBack_junk_noop l l.length, extFwd_junk_noop l]

/-- The queue loop on an empty stack returns the accumulator at any fuel. -/
theorem gmbGo_nil (flm : Nat → Nat → Nat → Nat → (Nat × Nat × Nat))
    (acc : List (Nat × Nat × Nat)) :
    ∀ fuel, gmbGo flm fuel [] acc = acc
  | 0 => rfl
  | _ + 1 => rfl

/-- On a nonempty sequence diffed against itself, the matcher emits the one
whole-sequence equal opcode: the dynamic program finds a diagonal block and
the extension loops stretch it across the entire sequence. -/
theorem get_opcodes_self_pos (l : List Char) (h : l.length ≠ 0) :
    get_opcodes l l = [(OpTag.equal, 0, l.length, 0, l.length)] := by
  have hflm := flm_self (fun c => b2jFinal_spec l c)
  have hblocks : gmbGo
      (find_longest_match (b2jFinal (fun _ => false) true l)
        (fun _ => false) l l)
      (l.length + l.length + 1) [(0, l.length, 0, l.length)] [] =
      [(0, 0, l.length)] := by
    unfold gmbGo
    rw [hflm]
    simp [gmbGo_nil, h]
  have hmb : get_matching_blocks (b2jFinal (fun _ => false) true l)
      (fun _ => false) l l = [(0, 0, l.length), (l.length, l.length, 0)] := by
    simp only [get_matching_blocks, hblocks, sortBlocks, insSorted, mergeAdj]
    simp [h]
  simp only [get_opcodes, hmb, opcodesGo]
  simp [h]

theorem sliceStr_full (l : List Char) : sliceStr l 0 l.length = String.mk l := by
  simp [sliceStr]

theorem join_single (x : String) : String.join [x] = x := rfl

/-- Diffing any string value against itself returns the pair unchanged, with
no coloring applied on either side. -/
theorem colordiffRaw_self (colors : ColorTable) (enabled : Bool) (s : String) :
    colordiffRaw colors enabled (PyV.s s) (PyV.s s) = Except.ok (s, s) := by
  cases s with
  | mk data =>
    cases data with
    | nil => rfl
    | cons c cs =>
      have h : (c :: cs).length ≠ 0 := by simp
      have hops := get_opcodes_self_pos (c :: cs) h
      have hdata : (String.mk (c :: cs)).data = c :: cs := rfl
      have hwalk : cdWalk colors enabled (c :: cs) (c :: cs)
          [(OpTag.equal, 0, (c :: cs).length, 0, (c :: cs).length)] =
          Except.ok ([String.mk (c :: cs)], [String.mk (c :: cs)]) := by
        simp only [cdWalk, cdStep, sliceStr_full, List.append_nil]
      simp only [colordiffRaw, hdata, hops, hwalk, join_single]

/-! ## Claim C10: split_into_lines invariants -/

/-- Join of a word list with single spaces, the Python space join. -/
def joinWords : List String → String
  | [] => ""
  | [w] => w
  | w :: rest => w ++ " " ++ joinWords rest

theorem joinWords_cons_cons (a b : String) (l : List String) :
    joinWords (a :: b :: l) = a ++ " " ++ joinWords (b :: l) := rfl

theorem joinWords_append_one : ∀ (xs : List String) (w : String), xs ≠ [] →
    joinWords (xs ++ [w]) = joinWords xs ++ " " ++ w := by
  intro xs
  induction xs with
  | nil => intro w h; exact absurd rfl h
  | cons x xs ih =>
    intro w _
    cases xs with
    | nil => rfl
    | cons y ys =>
      have h := ih w (by simp)
      have h2 : x :: (y :: ys) ++ [w] = x :: ((y :: ys) ++ [w]) := by simp
      rw [h2, List.cons_append, joinWords_cons_cons, ← List.cons_append, h,
        joinWords_cons_cons]
      simp [String.append_assoc]

/-- Line of words number i0 through i0 + k - 1 of ws, joined by spaces. -/
def spanLine (ws : List String) (p : Nat × Nat) : String :=
  joinWords ((ws.drop p.1).take p.2)

theorem slice_extend {R : List String} {i0 p0 : Nat} {wR : String}
    {R' : List String} (hip : i0 ≤ p0) (hdrop : R.drop p0 = wR :: R') :
    (R.drop i0).take (p0 - i0 + 1) = (R.drop i0).take (p0 - i0) ++ [wR] := by
  rw [List.take_succ]
  have hg : (R.drop i0)[p0 - i0]? = some wR := by
    rw [List.getElem?_drop]
    have h1 : i0 + (p0 - i0) = p0 := by omega
    rw [h1]
    have h2 : R[p0]? = (R.drop p0)[0]? := by
      rw [List.getElem?_drop]
      simp
    rw [h2, hdrop]
    simp
  rw [hg]
  rfl

theorem slice_nonempty {R : List String} {i0 p0 : Nat} (h1 : i0 < p0)
    (h2 : p0 ≤ R.length) : (R.drop i0).take (p0 - i0) ≠ [] := by
  intro he
  have := congrArg List.length he
  simp [List.length_take, List.length_drop] at this
  omega

theorem silGo_spans : ∀ (pairs : List (String × String)) (R W : List String)
    (p0 i0 : Nat) (fw mw : Int) (isFirst : Bool) (next : String × String)
    (spansAcc : List (Nat × Nat)),
    R.length = W.length →
    p0 ≤ R.length →
    pairs = (R.drop p0).zip (W.drop p0) →
    i0 ≤ p0 →
    (isFirst = true → i0 = p0 ∧ next = ("", "")) →
    (isFirst = false → i0 < p0 ∧
      next = (spanLine R (i0, p0 - i0), spanLine W (i0, p0 - i0))) →
    ∃ (spans : List (Nat × Nat)) (j : Nat), j ≤ R.length ∧
      silGo fw mw pairs isFirst next
          (spansAcc.map (spanLine R), spansAcc.map (spanLine W)) =
        (((spansAcc ++ spans).map (spanLine R),
          (spansAcc ++ spans).map (spanLine W)),
         (joinWords (R.drop j), joinWords (W.drop j))) := by
  intro pairs
  induction pairs with
  | nil =>
    intro R W p0 i0 fw mw isFirst next spansAcc hlen hple hpairs hi0 hft hff
    have hdlen : (R.drop p0).length = (W.drop p0).length := by
      simp [List.length_drop]
      omega
    have hpR : R.drop p0 = [] := by
      rcases hR : R.drop p0 with _ | ⟨wR, R'⟩
      · rfl
      rcases hW : W.drop p0 with _ | ⟨wW, W'⟩
      · rw [hR, hW] at hdlen
        simp at hdlen
      · rw [hR, hW] at hpairs
        simp [List.zip_cons_cons] at hpairs
    have hp0 : p0 = R.length := by
      have h1 := congrArg List.length hpR
      simp [List.length_drop] at h1
      omega
    refine ⟨[], i0, by omega, ?_⟩
    simp only [silGo, List.append_nil]
    have hnext : next = (joinWords (R.drop i0), joinWords (W.drop i0)) := by
      cases hisf : isFirst with
      | true =>
        obtain ⟨hi, hn⟩ := hft hisf
        have h1 : R.drop i0 = [] := by rw [hi]; exact hpR
        have h2 : W.drop i0 = [] := List.drop_eq_nil_of_le (by omega)
        rw [hn, h1, h2]
        rfl
      | false =>
        obtain ⟨hi, hn⟩ := hff hisf
        rw [hn]
        simp only [spanLine]
        rw [List.take_of_length_le (by simp [List.length_drop]; omega),
          List.take_of_length_le (by simp [List.length_drop]; omega)]
    rw [hnext]
  | cons pr pairs ih =>
    intro R W p0 i0 fw mw isFirst next spansAcc hlen hple hpairs hi0 hft hff
    rcases hR : R.drop p0 with _ | ⟨wR, R'⟩
    · rw [hR] at hpairs
      simp at hpairs
    rcases hW : W.drop p0 with _ | ⟨wW, W'⟩
    · rw [hW] at hpairs
      simp [List.zip_nil_right] at hpairs
    rw [hR, hW] at hpairs
    simp only [List.zip_cons_cons] at hpairs
    obtain ⟨hpr, hpairs2⟩ : pr = (wR, wW) ∧
        pairs = R'.zip W' := by
      cases hpairs
      exact ⟨rfl, rfl⟩
    have hdropR : R.drop (p0 + 1) = R' := by
      have := List.drop_drop 1 p0 R
      rw [hR] at this
      simpa [Nat.add_comm] using this.symm
    have hdropW : W.drop (p0 + 1) = W' := by
      have := List.drop_drop 1 p0 W
      rw [hW] at this
      simpa [Nat.add_comm] using this.symm
    have hpairs' : pairs = (R.drop (p0 + 1)).zip (W.drop (p0 + 1)) := by
      rw [hdropR, hdropW]
      exact hpairs2
    have hp1 : p0 + 1 ≤ R.length := by
      have := congrArg List.length hR
      simp [List.length_drop] at this
      omega
    have hsingR : wR = spanLine R (p0, 1) := by
      simp only [spanLine, hR]
      rfl
    have hsingW : wW = spanLine W (p0, 1) := by
      simp only [spanLine, hW]
      rfl
    obtain ⟨nextR, nextC⟩ := next
    subst hpr
    have hpotR : (if isFirst then wR else nextR ++ " " ++ wR) =
        spanLine R (i0, p0 + 1 - i0) := by
      cases hisf : isFirst with
      | true =>
        obtain ⟨hi, hn⟩ := hft hisf
        simp only [if_pos]
        rw [hi]
        have h1 : p0 + 1 - p0 = 1 := by omega
        rw [h1]
        exact hsingR
      | false =>
        obtain ⟨hi, hn⟩ := hff hisf
        simp only [Prod.mk.injEq] at hn
        simp only [if_neg Bool.false_ne_true, hn.1]
        simp only [spanLine]
        have h2 : p0 + 1 - i0 = p0 - i0 + 1 := by omega
        rw [h2, slice_extend (by omega) hR,
          joinWords_append_one _ _ (slice_nonempty hi (by omega))]
    have hpotW : (if isFirst then wW else nextC ++ " " ++ wW) =
        spanLine W (i0, p0 + 1 - i0) := by
      cases hisf : isFirst with
      | true =>
        obtain ⟨hi, hn⟩ := hft hisf
        simp only [if_pos]
        rw [hi]
        have h1 : p0 + 1 - p0 = 1 := by omega
        rw [h1]
        exact hsingW
      | false =>
        obtain ⟨hi, hn⟩ := hff hisf
        simp only [Prod.mk.injEq] at hn
        simp only [if_neg Bool.false_ne_true, hn.2]
        simp only [spanLine]
        have h2 : p0 + 1 - i0 = p0 - i0 + 1 := by omega
        rw [h2, slice_extend (by omega) hW,
          joinWords_append_one _ _ (slice_nonempty hi (by omega))]
    have hcommitR : nextR = spanLine R (i0, p0 - i0) := by
      cases hisf : isFirst with
      | true =>
        obtain ⟨hi, hn⟩ := hft hisf
        simp only [Prod.mk.injEq] at hn
        rw [hi]
        simp [spanLine, hn.1, joinWords]
      | false =>
        obtain ⟨hi, hn⟩ := hff hisf
        simp only [Prod.mk.injEq] at hn
        exact hn.1
    have hcommitW : nextC = spanLine W (i0, p0 - i0) := by
      cases hisf : isFirst with
      | true =>
        obtain ⟨hi, hn⟩ := hft hisf
        simp only [Prod.mk.injEq] at hn
        rw [hi]
        simp [spanLine, hn.2, joinWords]
      | false =>
        obtain ⟨hi, hn⟩ := hff hisf
        simp only [Prod.mk.injEq] at hn
        exact hn.2
    obtain ⟨spansF, jF, hjF, hrecF⟩ := ih R W (p0 + 1) i0 fw mw false
      (spanLine R (i0, p0 + 1 - i0), spanLine W (i0, p0 + 1 - i0))
      spansAcc hlen hp1 hpairs' (by omega)
      (by intro h; cases h) (fun _ => ⟨by omega, rfl⟩)
    obtain ⟨spansN, jN, hjN, hrecN⟩ := ih R W (p0 + 1) p0 fw mw false
      (spanLine R (p0, 1), spanLine W (p0, 1))
      (spansAcc ++ [(i0, p0 - i0)]) hlen hp1 hpairs' (by omega)
      (by intro h; cases h)
      (fun _ => by
        refine ⟨by omega, ?_⟩
        have h1 : p0 + 1 - p0 = 1 := by omega
        rw [h1])
    have hmapsR : List.map (spanLine R) spansAcc ++ [nextR] =
        List.map (spanLine R) (spansAcc ++ [(i0, p0 - i0)]) := by
      simp [hcommitR]
    have hmapsW : List.map (spanLine W) spansAcc ++ [nextC] =
        List.map (spanLine W) (spansAcc ++ [(i0, p0 - i0)]) := by
      simp [hcommitW]
    simp only [silGo]
    rw [hpotR, hpotW]
    split <;> split <;>
      first
        | (refine ⟨spansF, jF, hjF, ?_⟩
           exact hrecF)
        | (refine ⟨(i0, p0 - i0) :: spansN, jN, hjN, ?_⟩
           rw [hmapsR, hmapsW, hsingR, hsingW, hrecN]
           simp)

/-- Join of the whole tail from index j equals the span line of width the
remaining length. -/
theorem joinWords_drop_eq_spanLine (L : List String) (j : Nat) :
    joinWords (L.drop j) = spanLine L (j, L.length - j) := by
  simp only [spanLine]
  rw [List.take_of_length_le (by simp [List.length_drop])]

/-- C10: for every pair of strings splitting into the same number of words
and every width triple, split_into_lines returns col and raw lists of equal
nonzero length, and there is one list of word index spans such that every
col line is the join, with single spaces, of the corresponding consecutive
span of col words and every raw line the join of the same span of raw
words; no word is ever broken. -/
theorem C10_split_into_lines_spans :
    ∀ (s rs : String) (fw mw lw : Int),
      (pySplit rs).length = (pySplit s).length →
      ∃ spans : List (Nat × Nat), spans ≠ [] ∧
        (split_into_lines s rs fw mw lw).raw =
          spans.map (spanLine (pySplit rs)) ∧
        (split_into_lines s rs fw mw lw).col =
          spans.map (spanLine (pySplit s)) ∧
        (split_into_lines s rs fw mw lw).col.length =
          (split_into_lines s rs fw mw lw).raw.length ∧
        0 < (split_into_lines s rs fw mw lw).raw.length := by
  intro s rs fw mw lw hlen
  obtain ⟨spans, j, hj, hrec⟩ := silGo_spans ((pySplit rs).zip (pySplit s))
    (pySplit rs) (pySplit s) 0 0 fw mw true ("", "") [] hlen (by omega)
    (by simp) (by omega) (fun _ => ⟨rfl, rfl⟩) (by intro h; cases h)
  simp only [List.map_nil] at hrec
  simp only [List.nil_append] at hrec
  have hres : split_into_lines s rs fw mw lw =
      (if ¬ ((joinWords ((pySplit rs).drop j)).length : Int) ≤ lw then
        SplitResult.mk
          (spans.map (spanLine (pySplit s)) ++ [joinWords ((pySplit s).drop j)] ++ [""])
          (spans.map (spanLine (pySplit rs)) ++ [joinWords ((pySplit rs).drop j)] ++ [""])
      else
        SplitResult.mk
          (spans.map (spanLine (pySplit s)) ++ [joinWords ((pySplit s).drop j)])
          (spans.map (spanLine (pySplit rs)) ++ [joinWords ((pySplit rs).drop j)])) := by
    simp only [split_into_lines, hrec]
  have hjoinR := joinWords_drop_eq_spanLine (pySplit rs) j
  have hjoinW : joinWords ((pySplit s).drop j) =
      spanLine (pySplit s) (j, (pySplit rs).length - j) := by
    rw [joinWords_drop_eq_spanLine (pySplit s) j, hlen]
  have hempR : ("" : String) = spanLine (pySplit rs) ((pySplit rs).length, 0) := by
    simp [spanLine, joinWords]
  have hempW : ("" : String) = spanLine (pySplit s) ((pySplit rs).length, 0) := by
    simp [spanLine, joinWords]
  rw [hres]
  split
  · refine ⟨spans ++ [(j, (pySplit rs).length - j)] ++
      [((pySplit rs).length, 0)], by simp, ?_, ?_, ?_, ?_⟩
    · simp only [List.map_append, List.map_cons, List.map_nil]
      rw [hjoinR, ← hempR]
    · simp only [List.map_append, List.map_cons, List.map_nil]
      rw [hjoinW, ← hempW]
    · simp
    · simp
  · refine ⟨spans ++ [(j, (pySplit rs).length - j)], by simp, ?_, ?_, ?_, ?_⟩
    · simp only [List.map_append, List.map_cons, List.map_nil]
      rw [hjoinR]
    · simp only [List.map_append, List.map_cons, List.map_nil]
      rw [hjoinW]
    · simp
    · simp

/-- C10 witness: the theorem applied to a concrete colorized and raw pair
with the same word count. -/
theorem C10_split_into_lines_spans_witness :
    ∃ spans : List (Nat × Nat), spans ≠ [] ∧
      (split_into_lines "aaa bb c ddddd" "aaa bb c ddddd" 6 4 3).raw =
        spans.map (spanLine (pySplit "aaa bb c ddddd")) ∧
      (split_into_lines "aaa bb c ddddd" "aaa bb c ddddd" 6 4 3).col =
        spans.map (spanLine (pySplit "aaa bb c ddddd")) ∧
      (split_into_lines "aaa bb c ddddd" "aaa bb c ddddd" 6 4 3).col.length =
        (split_into_lines "aaa bb c ddddd" "aaa bb c ddddd" 6 4 3).raw.length ∧
      0 < (split_into_lines "aaa bb c ddddd" "aaa bb c ddddd" 6 4 3).raw.length :=
  C10_split_into_lines_spans "aaa bb c ddddd" "aaa bb c ddddd" 6 4 3 rfl

/-! ## Claim C8: strip after colorize -/

theorem digitChar_isDigit {d : Nat} (h : d < 10) :
    (digitChar d).isDigit = true := by
  match d with
  | 0 | 1 | 2 | 3 | 4 | 5 | 6 | 7 | 8 | 9 => decide
  | n + 10 => omega

theorem natDecGo_digits : ∀ (fuel n : Nat) (acc : List Char),
    (∀ c ∈ acc, c.isDigit = true) →
    ∀ c ∈ natDecGo fuel n acc, c.isDigit = true := by
  intro fuel
  induction fuel with
  | zero => intro n acc hacc c hc; exact hacc c hc
  | succ fuel ih =>
    intro n acc hacc c hc
    simp only [natDecGo] at hc
    split at hc
    · rcases List.mem_cons.mp hc with h0 | h0
      · subst h0; exact digitChar_isDigit (by omega)
      · exact hacc c h0
    · refine ih (n / 10) _ ?_ c hc
      intro c' hc'
      rcases List.mem_cons.mp hc' with h0 | h0
      · subst h0; exact digitChar_isDigit (Nat.mod_lt _ (by omega))
      · exact hacc c' h0

theorem natDec_digits (n : Nat) : ∀ c ∈ (natDec n).data, c.isDigit = true := by
  intro c hc
  exact natDecGo_digits (n + 1) n [] (by simp) c hc

theorem afterRun_run : ∀ (ds rest : List Char),
    (∀ c ∈ ds, c.isDigit = true ∨ c = ';') →
    afterRun (ds ++ 'm' :: rest) = some rest := by
  intro ds
  induction ds with
  | nil => intro rest _; simp [afterRun]
  | cons c ds ih =>
    intro rest hds
    have hc := hds c (by simp)
    have : (c.isDigit || c = ';') = true := by
      rcases hc with h | h
      · simp [h]
      · simp [h]
    simp only [List.cons_append, afterRun, this, if_pos]
    exact ih rest (fun c' hc' => hds c' (by simp [hc']))

theorem uncolGo_step (fuel : Nat) (c : Char) (rest : List Char) :
    uncolGo (fuel + 1) (c :: rest) =
      if c = '\x1b' ∧ rest.head? = some '[' then
        match afterRun rest.tail with
        | some tail => uncolGo fuel tail
        | none => c :: uncolGo fuel rest
      else c :: uncolGo fuel rest := rfl

theorem uncolGo_fuel : ∀ (f1 : Nat) (l : List Char) (f2 : Nat),
    l.length < f1 → l.length < f2 → uncolGo f1 l = uncolGo f2 l := by
  intro f1
  induction f1 with
  | zero => intro l f2 h; omega
  | succ f1 ih =>
    intro l f2 h1 h2
    cases l with
    | nil =>
      cases f2 with
      | zero => omega
      | succ f2 => rfl
    | cons c rest =>
      cases f2 with
      | zero => omega
      | succ f2 =>
        rw [uncolGo_step f1 c rest, uncolGo_step f2 c rest]
        by_cases hc : c = '\x1b' ∧ rest.head? = some '['
        · rw [if_pos hc, if_pos hc]
          cases har : afterRun rest.tail with
          | some tail =>
            have htl : tail.length < rest.tail.length := afterRun_length har
            have hrl : rest.tail.length ≤ rest.length := by
              cases rest <;> simp
            exact ih tail f2 (by simp at h1; omega) (by simp at h2; omega)
          | none =>
            rw [ih rest f2 (by simp at h1; omega) (by simp at h2; omega)]
        · rw [if_neg hc, if_neg hc]
          rw [ih rest f2 (by simp at h1; omega) (by simp at h2; omega)]

theorem uncolGo_eq_uncolChars {fuel : Nat} {l : List Char}
    (h : l.length < fuel) : uncolGo fuel l = uncolChars l :=
  uncolGo_fuel fuel l (l.length + 1) h (by omega)

theorem uncolChars_cons_notesc {c : Char} {l : List Char} (h : c ≠ '\x1b') :
    uncolChars (c :: l) = c :: uncolChars l := by
  show uncolGo ((c :: l).length + 1) (c :: l) = c :: uncolChars l
  rw [uncolGo_step (c :: l).length c l]
  rw [if_neg (by simp [h])]
  rw [uncolGo_eq_uncolChars (by simp)]

theorem uncolChars_escfree_append : ∀ (s t : List Char),
    (∀ c ∈ s, c ≠ '\x1b') →
    uncolChars (s ++ t) = s ++ uncolChars t := by
  intro s
  induction s with
  | nil => intro t _; simp
  | cons c s' ih =>
    intro t hs
    have hc : c ≠ '\x1b' := hs c (by simp)
    rw [List.cons_append, uncolChars_cons_notesc hc,
      ih t (fun c' hc' => hs c' (by simp [hc']))]
    rfl

theorem uncolChars_nil : uncolChars [] = [] := rfl

theorem uncolChars_escape (run rest : List Char)
    (hrun : ∀ c ∈ run, c.isDigit = true ∨ c = ';') :
    uncolChars ('\x1b' :: '[' :: (run ++ 'm' :: rest)) = uncolChars rest := by
  show uncolGo (('\x1b' :: '[' :: (run ++ 'm' :: rest)).length + 1)
    ('\x1b' :: '[' :: (run ++ 'm' :: rest)) = uncolChars rest
  rw [uncolGo_step]
  rw [if_pos (by simp)]
  simp only [List.tail_cons]
  rw [afterRun_run run rest hrun]
  refine uncolGo_eq_uncolChars ?_
  simp [List.length_append]
  omega

/-- Concatenated escape data of a list of valid ANSI code names, matching
the accumulation of colorizeEscGo. -/
def escCat : List String → List Char
  | [] => []
  | code :: rest =>
    match ansiCode? code with
    | some n => (escSeq n).data ++ escCat rest
    | none => []

theorem colorizeEscGo_ok : ∀ (codes : List String) (esc0 : String),
    (∀ c ∈ codes, (ansiCode? c).isSome = true) →
    ∃ esc, colorizeEscGo codes esc0 = .ok esc ∧
      esc.data = esc0.data ++ escCat codes := by
  intro codes
  induction codes with
  | nil => intro esc0 _; exact ⟨esc0, rfl, by simp [escCat]⟩
  | cons code rest ih =>
    intro esc0 hv
    have h0 := hv code (by simp)
    cases hc : ansiCode? code with
    | none => rw [hc] at h0; simp at h0
    | some n =>
      obtain ⟨esc, hesc, hdata⟩ := ih (esc0 ++ escSeq n)
        (fun c hcm => hv c (by simp [hcm]))
      refine ⟨esc, ?_, ?_⟩
      · simp only [colorizeEscGo, hc]
        exact hesc
      · rw [hdata, String.data_append]
        simp [escCat, hc]

theorem uncolChars_escCat : ∀ (codes : List String) (rest : List Char),
    (∀ c ∈ codes, (ansiCode? c).isSome = true) →
    uncolChars (escCat codes ++ rest) = uncolChars rest := by
  intro codes
  induction codes with
  | nil => intro rest _; simp [escCat]
  | cons code cs ih =>
    intro rest hv
    have h0 := hv code (by simp)
    cases hc : ansiCode? code with
    | none => rw [hc] at h0; simp at h0
    | some n =>
      simp only [escCat, hc, List.append_assoc]
      have hseq : (escSeq n).data =
          '\x1b' :: '[' :: ((natDec n).data ++ ['m']) := by
        simp [escSeq, COLOR_ESCAPE, String.data_append]
      rw [hseq]
      have : ('\x1b' :: '[' :: ((natDec n).data ++ ['m'])) ++
          (escCat cs ++ rest) =
          '\x1b' :: '[' :: ((natDec n).data ++ 'm' :: (escCat cs ++ rest)) := by
        simp
      rw [this, uncolChars_escape _ _
        (fun c hcm => Or.inl (natDec_digits n c hcm))]
      exact ih rest (fun c hcm => hv c (by simp [hcm]))

theorem uncolChars_reset (rest : List Char) :
    uncolChars (RESET_COLOR.data ++ rest) = uncolChars rest := by
  have : RESET_COLOR.data ++ rest =
      '\x1b' :: '[' :: (['3', '9', ';', '4', '9', ';', '0', '0'] ++
        'm' :: rest) := by
    simp [RESET_COLOR, COLOR_ESCAPE, String.data_append]
  rw [this]
  exact uncolChars_escape _ _ (by decide)

/-- C8 counterexample: the input already containing an ANSI sequence is also
stripped, so strip after colorize is not the identity on it, and strip alone
is not the identity either, with or without color. -/
theorem C8_strip_counterexample :
    colorize exampleColors true "text_error" "\x1b[0m" =
      Except.ok "\x1b[1m\x1b[31m\x1b[0m\x1b[39;49;00m" ∧
    uncolorize "\x1b[1m\x1b[31m\x1b[0m\x1b[39;49;00m" = "" ∧
    color_len "\x1b[1m\x1b[31m\x1b[0m\x1b[39;49;00m" = 0 ∧
    ("\x1b[0m" : String).length = 4 ∧
    uncolorize "\x1b[0m" = "" ∧ ("" : String) ≠ "\x1b[0m" := by
  refine ⟨rfl, rfl, rfl, rfl, rfl, by decide⟩

/-- C8 (amended): for every role resolvable in the color table to a nonempty
list of valid ANSI code names and every input string containing no escape
character, strip after colorize returns the original string and the visible
length of the colorized string is the length of the original; strip is the
identity on every escape free string, so the identity also holds with color
disabled, where colorize is itself the identity. -/
theorem C8_strip_colorize_amended :
    ∀ (colors : ColorTable) (name : String) (codes : List String) (s : String),
      colors name = some codes → codes ≠ [] →
      (∀ c ∈ codes, (ansiCode? c).isSome = true) →
      (∀ ch ∈ s.data, ch ≠ '\x1b') →
      ∃ r, colorize colors true name s = .ok r ∧
        uncolorize r = s ∧ color_len r = s.length ∧
        uncolorize s = s ∧ colorize colors false name s = .ok s := by
  intro colors name codes s hname hne hvalid hfree
  obtain ⟨esc, hesc, hdata⟩ := colorizeEscGo_ok codes "" hvalid
  have hstrip_s : uncolorize s = s := by
    have h1 : uncolChars (s.data ++ []) = s.data ++ uncolChars [] :=
      uncolChars_escfree_append s.data [] hfree
    simp only [List.append_nil, uncolChars_nil] at h1
    simp only [uncolorize, h1]
  refine ⟨esc ++ s ++ RESET_COLOR, ?_, ?_, ?_, hstrip_s, rfl⟩
  · simp only [colorize, if_pos, hname]
    rw [if_neg hne]
    simp only [colorizeRaw, hesc]
  · have hd : (esc ++ s ++ RESET_COLOR).data =
        escCat codes ++ (s.data ++ RESET_COLOR.data) := by
      simp [String.data_append, hdata]
    simp only [uncolorize, hd]
    rw [uncolChars_escCat codes _ hvalid,
      uncolChars_escfree_append s.data RESET_COLOR.data hfree]
    have : uncolChars RESET_COLOR.data = [] := by
      have := uncolChars_reset []
      simpa using this
    rw [this]
    simp only [List.append_nil]
  · have hd : (esc ++ s ++ RESET_COLOR).data =
        escCat codes ++ (s.data ++ RESET_COLOR.data) := by
      simp [String.data_append, hdata]
    simp only [color_len, uncolorize, hd]
    rw [uncolChars_escCat codes _ hvalid,
      uncolChars_escfree_append s.data RESET_COLOR.data hfree]
    have : uncolChars RESET_COLOR.data = [] := by
      have := uncolChars_reset []
      simpa using this
    rw [this]
    simp only [List.append_nil]

/-- C8 witness: the amended theorem applied to the text_error role of the
example table and the escape free string hi. -/
theorem C8_strip_colorize_amended_witness :
    ∃ r, colorize exampleColors true "text_error" "hi" = .ok r ∧
      uncolorize r = "hi" ∧ color_len r = ("hi" : String).length ∧
      uncolorize "hi" = "hi" ∧
      colorize exampleColors false "text_error" "hi" = .ok "hi" :=
  C8_strip_colorize_amended exampleColors "text_error" ["bold", "red"] "hi"
    rfl (by decide) (by decide) (by decide)

/-! ## Claim C6: strong recommendation auto apply -/

/-- C6: with a nonempty candidate list, recommendation strong and timid mode
off, choose_candidate returns the top candidate as the chosen decision
without consuming any operator selection and without a single input_options
call, for every selection stream. -/
theorem C6_choose_candidate_strong :
    ∀ (α : Type) (cands : List α) (m0 : α) (rest : List α)
      (singleton : Bool) (defaultAction : Option Char) (sels : List Sel),
      cands = m0 :: rest →
      choose_candidate cands singleton .strong false defaultAction sels =
        some (.chosen m0, 0) := by
  intro α cands m0 rest singleton defaultAction sels hc
  subst hc
  simp [choose_candidate]
  unfold choosePost
  simp

/-- C6 witness: the theorem applied to a single candidate list. -/
theorem C6_choose_candidate_strong_witness :
    choose_candidate [42] false .strong false (some 'a')
      [Sel.letter 's'] = some (.chosen 42, 0) :=
  C6_choose_candidate_strong Nat [42] 42 [] false (some 'a')
    [Sel.letter 's'] rfl

/-! ## Claim C9: diffing a string against itself -/

/-- The stripper is the identity on strings without the escape character. -/
theorem uncolorize_escfree (s : String) (h : ∀ c ∈ s.data, c ≠ '\x1b') :
    uncolorize s = s := by
  have h1 := uncolChars_escfree_append s.data [] h
  rw [List.append_nil, uncolChars_nil, List.append_nil] at h1
  simp only [uncolorize, h1]

/-- C9 counterexample: for a string that itself contains an ANSI escape
sequence, colordiff with color enabled returns the pair unchanged, which is
not the stripped original: the stripped original has the escape sequence
removed. -/
theorem C9_colordiff_self_counterexample :
    colordiff exampleColors true (PyV.s "\x1b[31mx") (PyV.s "\x1b[31mx") =
      Except.ok ("\x1b[31mx", "\x1b[31mx") ∧
    uncolorize "\x1b[31mx" = "x" ∧
    ("\x1b[31mx" : String) ≠ "x" := by
  refine ⟨?_, rfl, by decide⟩
  show colordiffRaw exampleColors true (PyV.s "\x1b[31mx")
    (PyV.s "\x1b[31mx") = Except.ok ("\x1b[31mx", "\x1b[31mx")
  exact colordiffRaw_self exampleColors true "\x1b[31mx"

/-- C9 amended: for every color table and every string, diffing the string
against itself with color enabled returns the pair unchanged with no
coloring applied on either side; when the string contains no escape
character, that output also equals the stripped original. -/
theorem C9_colordiff_self_amended (colors : ColorTable) (s : String) :
    colordiff colors true (PyV.s s) (PyV.s s) = Except.ok (s, s) ∧
    ((∀ c ∈ s.data, c ≠ '\x1b') → uncolorize s = s) := by
  constructor
  · show colordiffRaw colors true (PyV.s s) (PyV.s s) = Except.ok (s, s)
    exact colordiffRaw_self colors true s
  · intro h
    exact uncolorize_escfree s h

/-- C9 witness: the amended theorem applied to a concrete escape free
string. -/
theorem C9_colordiff_self_amended_witness :
    colordiff exampleColors true (PyV.s "santana") (PyV.s "santana") =
      Except.ok ("santana", "santana") ∧
    uncolorize "santana" = "santana" :=
  ⟨(C9_colordiff_self_amended exampleColors "santana").1,
   (C9_colordiff_self_amended exampleColors "santana").2 (by decide)⟩

end Beets
